import Mathlib

/-!
Verification of `totalhelp` (src/totalhelp/core.py) against its specification.

The Python source is shallowly embedded below.  Strings are modelled as
`List Char`; Python `re` idioms used by the source are modelled by explicit
scanning functions whose behaviour matches the regexes on the inputs the
program handles (`\w` and case folding are modelled over ASCII, which is
noted where it applies).  The external world (child processes) is modelled
by an oracle parameter.
-/

namespace TotalHelp

/-- Python whitespace (the character set of `str.isspace`, `str.split()` and
regex `\s`): ASCII whitespace plus the common Unicode whitespace points. -/
def isPySpace (c : Char) : Bool :=
  c = ' ' || c = '\t' || c = '\n' || c = '\r' || c = '\x0b' || c = '\x0c' ||
  c = '\x1c' || c = '\x1d' || c = '\x1e' || c = '\x1f' || c = '\x85' || c = '\xa0' ||
  c = '\u1680' || c = '\u2000' || c = '\u2001' || c = '\u2002' || c = '\u2003' ||
  c = '\u2004' || c = '\u2005' || c = '\u2006' || c = '\u2007' || c = '\u2008' ||
  c = '\u2009' || c = '\u200a' || c = '\u2028' || c = '\u2029' || c = '\u202f' ||
  c = '\u205f' || c = '\u3000'

/-- Regex `\w` (ASCII fragment): letters, digits, underscore. -/
def isWordChar (c : Char) : Bool :=
  c.isAlphanum || c = '_'

/-- The line boundaries recognised by Python `str.splitlines`. -/
def isLineBreakChar (c : Char) : Bool :=
  c = '\n' || c = '\r' || c = '\x0b' || c = '\x0c' || c = '\x1c' || c = '\x1d' ||
  c = '\x1e' || c = '\x85' || c = '\u2028' || c = '\u2029'

/-- The `\x7b` character (opening curly brace). -/
def lbrace : Char := Char.ofNat 123

/-- The `\x7d` character (closing curly brace). -/
def rbrace : Char := Char.ofNat 125

/-- Case-insensitive "starts with" (ASCII case folding, as in `re.IGNORECASE`
on the ASCII patterns the source uses). -/
def startsWithCI : List Char → List Char → Bool
  | [], _ => true
  | _ :: _, [] => false
  | p :: ps, c :: cs => (p.toLower = c.toLower) && startsWithCI ps cs

/-- One scanning step of `re.search(r"^usage:...", text, MULTILINE|IGNORECASE)`:
return the suffix of the text that begins at the first line start whose line
begins with `usage:` (case-insensitively).  The boolean records whether the
current position is a line start. -/
def findUsageAux : Bool → List Char → Option (List Char)
  | _, [] => none
  | atStart, c :: rest =>
    if atStart && startsWithCI "usage:".data (c :: rest) then some (c :: rest)
    else findUsageAux (c = '\n') rest

/-- The non-greedy `.*?(?=\n\n|\Z)` (with DOTALL): everything up to but not
including the first blank-line separator, or to the end of the text. -/
def takeUntilDoubleNl : List Char → List Char
  | [] => []
  | '\n' :: '\n' :: _ => []
  | c :: rest => c :: takeUntilDoubleNl rest

/-- Helper for `str.split()`: accumulates the current word (reversed). -/
def splitWSAux (cur : List Char) : List Char → List (List Char)
  | [] => if cur.isEmpty then [] else [cur.reverse]
  | c :: rest =>
    if isPySpace c then
      if cur.isEmpty then splitWSAux [] rest else cur.reverse :: splitWSAux [] rest
    else splitWSAux (c :: cur) rest

/-- Python `str.split()` with no separator: whitespace-delimited words. -/
def pySplitWS (l : List Char) : List (List Char) := splitWSAux [] l

/-- `sep.join(words)`. -/
def joinWith (sep : List Char) : List (List Char) → List Char
  | [] => []
  | [w] => w
  | w :: ws => w ++ sep ++ joinWith sep ws

/-- `re.sub(r"\[.*?\]", "", line)` as a left-to-right scan.  `pending = some buf`
means a `[` has been read with no `]` yet; `buf` holds the consumed characters
in reverse.  If the text ends inside a candidate group the regex never matched
there, so the buffered characters are emitted verbatim. -/
def stripBracketsAux : Option (List Char) → List Char → List Char
  | none, [] => []
  | some buf, [] => buf.reverse
  | none, c :: rest =>
    if c = '[' then stripBracketsAux (some [c]) rest
    else c :: stripBracketsAux none rest
  | some buf, c :: rest =>
    if c = ']' then stripBracketsAux none rest
    else stripBracketsAux (c :: buf) rest

/-- The character class `[\w,-]` of the brace-group regex. -/
def isBraceTok (c : Char) : Bool :=
  isWordChar c || c = ',' || c = '-'

/-- `re.search(r"\{([\w,-]+)\}", line)`: scan for the first opening brace that
is followed by a nonempty run of class characters and then a closing brace;
return the run. -/
def braceScan : List Char → Option (List Char)
  | [] => none
  | c :: rest =>
    if c = lbrace then
      let run := rest.takeWhile isBraceTok
      if !run.isEmpty && ((rest.drop run.length).head? = some rbrace) then some run
      else braceScan rest
    else braceScan rest

/-- `s.split(sep)` for a one-character separator (keeps empty fields). -/
def splitOnCharAux (sep : Char) (cur : List Char) : List Char → List (List Char)
  | [] => [cur.reverse]
  | c :: rest =>
    if c = sep then cur.reverse :: splitOnCharAux sep [] rest
    else splitOnCharAux sep (c :: cur) rest

/-- `s.split(sep)` for a one-character separator. -/
def splitOnChar (sep : Char) (l : List Char) : List (List Char) :=
  splitOnCharAux sep [] l

/-- Python `str.strip()`. -/
def pyStrip (l : List Char) : List Char :=
  ((l.dropWhile isPySpace).reverse.dropWhile isPySpace).reverse

/-- Helper for `str.splitlines`; `cur` is the current line, reversed. -/
def splitLinesAux (cur : List Char) : List Char → List (List Char)
  | [] => if cur.isEmpty then [] else [cur.reverse]
  | '\r' :: '\n' :: rest => cur.reverse :: splitLinesAux [] rest
  | c :: rest =>
    if isLineBreakChar c then cur.reverse :: splitLinesAux [] rest
    else splitLinesAux (c :: cur) rest

/-- Python `str.splitlines()`. -/
def pySplitLines (l : List Char) : List (List Char) :=
  splitLinesAux [] l

/-- Does this line match the section-header alternation
`^(Commands|Subcommands|Available commands|positional arguments):` at its
start (case-insensitively)? -/
def headerStart (l : List Char) : Bool :=
  startsWithCI "commands:".data l || startsWithCI "subcommands:".data l ||
  startsWithCI "available commands:".data l || startsWithCI "positional arguments:".data l

/-- `header_pattern.search(text)` with `re.MULTILINE`: `^` matches only at the
start of the text and right after a `\n`, so the precheck looks at the
`\n`-delimited segments of the raw text. -/
def precheckHeader (t : List Char) : Bool :=
  (splitOnChar '\n' t).any headerStart

/-- `not line.strip() or (line.strip() and not line.startswith((" ", "\t")))`. -/
def endsSection (l : List Char) : Bool :=
  (pyStrip l).isEmpty ||
    (!(pyStrip l).isEmpty && !(l.head? = some ' ' || l.head? = some '\t'))

/-- `line.strip().startswith("\x7b")`. -/
def stripStartsLBrace (l : List Char) : Bool :=
  (pyStrip l).head? = some lbrace

/-- `re.match(r"^\s+([\w-]+)", line)`: a nonempty run of whitespace followed by
a nonempty run of word characters or hyphens; returns the captured group. -/
def lineToken (l : List Char) : Option (List Char) :=
  let sp := l.takeWhile isPySpace
  if sp.isEmpty then none
  else
    let rest := l.dropWhile isPySpace
    let tok := rest.takeWhile (fun c => isWordChar c || c = '-')
    if tok.isEmpty then none else some tok

/-- The per-line loop of pattern 2 of `_find_subcommands_from_help`: the
boolean is `in_command_section`. -/
def sectionScan : Bool → List (List Char) → List (List Char)
  | _, [] => []
  | inSec, l :: rest =>
    if headerStart l then sectionScan true rest
    else if inSec then
      if endsSection l then sectionScan false rest
      else if stripStartsLBrace l then sectionScan inSec rest
      else
        match lineToken l with
        | some t => t :: sectionScan inSec rest
        | none => sectionScan inSec rest
    else sectionScan false rest

/-- Pattern 2 ("labeled section" strategy) of `_find_subcommands_from_help`. -/
def labeledSection (t : List Char) : List (List Char) :=
  if precheckHeader t then sectionScan false (pySplitLines t) else []

/-- `_find_subcommands_from_help` over `List Char`. -/
def findSubcommandsL (t : List Char) : List (List Char) :=
  match findUsageAux true t with
  | some s =>
    let block := takeUntilDoubleNl s
    let line := joinWith [' '] (pySplitWS block)
    let noOpt := stripBracketsAux none line
    match braceScan noOpt with
    | some run => (splitOnChar ',' run).map pyStrip
    | none => labeledSection t
  | none => labeledSection t

/-- `_find_subcommands_from_help` (src/totalhelp/core.py, lines 342-396). -/
def findSubcommandsFromHelp (s : String) : List String :=
  (findSubcommandsL s.data).map (fun l => String.mk l)


/-! ## External process prober (`full_help_external`, core.py lines 399-493) -/

/-- Outcome of one `subprocess.run(cmd_list + ["--help"], ...)` call, as
reported by the environment: a completed process with exit code, stdout and
stderr, or one of the exceptions the source catches. -/
inductive ProbeOutcome where
  | completed (returncode : Int) (stdout stderr : List Char)
  | notFound
  | timedOut
  | failed (msg : List Char)
  deriving DecidableEq

/-- `" ".join(cmd_list)` where `cmd_list = command + list(path)`. -/
def currentProg (command path : List (List Char)) : List Char :=
  joinWith [' '] (command ++ path)

/-- Python `str(i)` for an `int`. -/
def intStr (i : Int) : List Char := (toString i).data

/-- One discovered node of the external prober: `_ParserNode` whose parser is
a `_HelpOnlyParser(help_text.strip(), prog=current_prog)`. -/
structure ExtNode where
  path : List (List Char)
  prog : List Char
  help : List Char
  deriving DecidableEq, Repr

section External

variable (probe : List (List Char) → ProbeOutcome) (command : List (List Char))
variable (tstr : List Char) (maxd : Int)

/-- The `help_text` computed for the frontier entry at `path`
(core.py lines 451-475): the combined stdout+stderr on success, a warning
banner plus the output on a nonzero exit, or a synthetic placeholder for a
caught exception.  `tstr` is Python's rendering of the float `timeout`. -/
def helpRawOf (path : List (List Char)) : List Char :=
  match probe (command ++ path ++ ["--help".data]) with
  | .completed rc out err =>
    let t := out ++ err
    if rc = 0 then t
    else "[Warning: command exited with code ".data ++ intStr rc ++ "]\n\n".data ++ t
  | .notFound =>
    "[Error: command not found: \x27".data ++ currentProg command path ++ "\x27]".data
  | .timedOut =>
    "[Error: command timed out after ".data ++ tstr ++ " seconds]".data
  | .failed msg =>
    "[Error: an unexpected error occurred: ".data ++ msg ++ "]".data

/-- State of the prober loop: the FIFO frontier of pending paths (`q`; the
stored command list of an entry is always `command + list(path)`, so only the
path is kept), the `visited_paths` set (as a list), and the collected nodes. -/
structure ExtState where
  q : List (List (List Char))
  visited : List (List (List Char))
  nodes : List ExtNode
  deriving Repr

/-- The node recorded for the frontier entry at `p`
(core.py lines 477-478): a `_HelpOnlyParser(help_text.strip(), prog=...)`. -/
def extNodeAt (p : List (List Char)) : ExtNode :=
  ⟨p, currentProg command p, pyStrip (helpRawOf probe command tstr p)⟩

/-- The child paths enqueued for the frontier entry at `p`
(core.py lines 481-485): one per extracted subcommand name whose extended
path is not in `visited` (which already contains `p` at that point). -/
def extChildren (p : List (List Char)) (visited : List (List (List Char))) :
    List (List (List Char)) :=
  ((findSubcommandsL (helpRawOf probe command tstr p)).map (fun n => p ++ [n])).filter
    (fun np => decide (np ∉ visited))

/-- One iteration of the `while q:` loop of `full_help_external`
(core.py lines 440-485). -/
def extStep (s : ExtState) : ExtState :=
  match s.q with
  | [] => s
  | p :: qt =>
    if (p.length : Int) > maxd then { s with q := qt }
    else if p ∈ s.visited then { s with q := qt }
    else
      { q := qt ++ extChildren probe command tstr p (s.visited ++ [p]),
        visited := s.visited ++ [p],
        nodes := s.nodes ++ [extNodeAt probe command tstr p] }

/-- The prober loop with explicit fuel; it stops when the frontier is empty.
`extFuel` below is proved to be enough fuel for the loop to drain. -/
def extRun : Nat → ExtState → ExtState
  | 0, s => s
  | n + 1, s =>
    match s.q with
    | [] => s
    | _ :: _ => extRun n (extStep probe command tstr maxd s)

/-- The initial state: the frontier holds the root path. -/
def extInit : ExtState := ⟨[[]], [], []⟩

/-- Level `k` of the tree of paths the prober can possibly visit: children are
the extracted subcommand names of the parent help text, produced only below
the depth bound. -/
def reachLevel : Nat → List (List (List Char))
  | 0 => [[]]
  | k + 1 =>
    (reachLevel k).flatMap fun p =>
      if (p.length : Int) ≤ maxd then
        (findSubcommandsL (helpRawOf probe command tstr p)).map (fun n => p ++ [n])
      else []

/-- All paths the prober can possibly visit (levels `0 .. maxd+1`). -/
def reachList : List (List (List Char)) :=
  (List.range (maxd.toNat + 2)).flatMap (reachLevel probe command tstr maxd)

/-- Weight of a path in the termination measure: one for its own processing
plus one per extracted child name. -/
def pathWt (p : List (List Char)) : Nat :=
  1 + (findSubcommandsL (helpRawOf probe command tstr p)).length

/-- Termination measure of the prober loop: frontier length plus the weights
of the possibly-visitable paths not yet visited.  Every iteration strictly
decreases it. -/
def extMeasure (s : ExtState) : Nat :=
  s.q.length +
    (((reachList probe command tstr maxd).filter
      (fun p => decide (p ∉ s.visited))).map (pathWt probe command tstr)).sum

/-- Sufficient fuel for the prober loop to drain its frontier. -/
def extFuel : Nat := extMeasure probe command tstr maxd (extInit)

/-- The node list produced by `full_help_external` for a nonempty base
command (discovery part of core.py lines 424-485). -/
def extNodes : List ExtNode :=
  (extRun probe command tstr maxd (extFuel probe command tstr maxd) (extInit)).nodes

end External

/-- `full_help_external`'s discovery, including the `prog = command[0]` read
at core.py line 438 that raises `IndexError` on an empty base command before
the loop starts. -/
def fullHelpExternalNodes (probe : List (List Char) → ProbeOutcome)
    (command : List (List Char)) (tstr : List Char) (maxd : Int) :
    Except (List Char) (List ExtNode) :=
  match command with
  | [] => .error "IndexError: list index out of range".data
  | _ :: _ => .ok (extNodes probe command tstr maxd)

/-- The child-process invocations performed by a discovery run, in order: one
`subprocess.run(command + list(path) + ["--help"])` call per processed
frontier entry, i.e. per produced node. -/
def probeTrace (probe : List (List Char) → ProbeOutcome)
    (command : List (List Char)) (tstr : List Char) (maxd : Int) : List (List (List Char)) :=
  match command with
  | [] => []
  | _ :: _ => (extNodes probe command tstr maxd).map (fun n => command ++ n.path ++ ["--help".data])


/-! ## Termination of the external prober loop -/

lemma sum_map_le_of_sublist {α : Type} (wt : α → Nat) {l₁ l₂ : List α}
    (h : List.Sublist l₁ l₂) :
    (l₁.map wt).sum ≤ (l₂.map wt).sum := by
  induction h with
  | slnil => simp
  | cons a h ih => exact le_trans ih (by simp only [List.map_cons, List.sum_cons]; omega)
  | cons₂ a h ih => simpa using Nat.add_le_add_left ih (wt a)

lemma filter_sublist_filter_of_imp {α : Type} (q r : α → Bool)
    (h : ∀ x, q x = true → r x = true) :
    ∀ l : List α, List.Sublist (l.filter q) (l.filter r) := by
  intro l
  induction l with
  | nil => simp
  | cons a l ih =>
    by_cases hq : q a = true
    · rw [List.filter_cons_of_pos hq, List.filter_cons_of_pos (h a hq)]
      exact ih.cons₂ a
    · rw [List.filter_cons_of_neg (by simpa using hq)]
      by_cases hr : r a = true
      · rw [List.filter_cons_of_pos hr]
        exact ih.cons a
      · rw [List.filter_cons_of_neg (by simpa using hr)]
        exact ih

lemma sum_filter_visited_step (wt : List (List Char) → Nat)
    (v : List (List (List Char))) (p : List (List Char)) :
    ∀ l : List (List (List Char)), p ∈ l → p ∉ v →
      ((l.filter (fun x => decide (x ∉ v ++ [p]))).map wt).sum + wt p ≤
        ((l.filter (fun x => decide (x ∉ v))).map wt).sum := by
  intro l
  induction l with
  | nil => intro h; cases h
  | cons a l ih =>
    intro hl hv
    by_cases hap : a = p
    · subst hap
      rw [List.filter_cons_of_neg (by simp), List.filter_cons_of_pos (by simpa using hv)]
      have hsub := filter_sublist_filter_of_imp
        (fun x => decide (x ∉ v ++ [a])) (fun x => decide (x ∉ v))
        (by intro x hx; simp only [decide_eq_true_eq, List.mem_append] at hx ⊢; tauto) l
      have := sum_map_le_of_sublist wt hsub
      simp only [List.map_cons, List.sum_cons]
      omega
    · have hpl : p ∈ l := by
        rcases List.mem_cons.mp hl with h | h
        · exact absurd h.symm hap
        · exact h
      by_cases hav : a ∈ v
      · rw [List.filter_cons_of_neg (by simp [hav]), List.filter_cons_of_neg (by simp [hav])]
        exact ih hpl hv
      · have ha1 : a ∉ v ++ [p] := by simp [hav, hap]
        rw [List.filter_cons_of_pos (by simpa using ha1),
          List.filter_cons_of_pos (by simpa using hav)]
        have := ih hpl hv
        simp only [List.map_cons, List.sum_cons]
        omega

section ExternalProofs

variable (probe : List (List Char) → ProbeOutcome) (command : List (List Char))
variable (tstr : List Char) (maxd : Int)

lemma extStep_nil {s : ExtState} (h : s.q = []) :
    extStep probe command tstr maxd s = s := by
  simp [extStep, h]

lemma extStep_skip_depth {s : ExtState} {p : List (List Char)}
    {qt : List (List (List Char))} (hpq : s.q = p :: qt)
    (hd : (p.length : Int) > maxd) :
    extStep probe command tstr maxd s = { s with q := qt } := by
  simp [extStep, hpq, hd]

lemma extStep_skip_vis {s : ExtState} {p : List (List Char)}
    {qt : List (List (List Char))} (hpq : s.q = p :: qt)
    (hd : ¬ (p.length : Int) > maxd) (hv : p ∈ s.visited) :
    extStep probe command tstr maxd s = { s with q := qt } := by
  simp [extStep, hpq, hd, hv]

lemma extStep_process {s : ExtState} {p : List (List Char)}
    {qt : List (List (List Char))} (hpq : s.q = p :: qt)
    (hd : ¬ (p.length : Int) > maxd) (hv : p ∉ s.visited) :
    extStep probe command tstr maxd s =
      { q := qt ++ extChildren probe command tstr p (s.visited ++ [p]),
        visited := s.visited ++ [p],
        nodes := s.nodes ++ [extNodeAt probe command tstr p] } := by
  simp [extStep, hpq, hd, hv]

lemma mem_reachLevel_length :
    ∀ k p, p ∈ reachLevel probe command tstr maxd k → p.length = k := by
  intro k
  induction k with
  | zero => intro p hp; simp only [reachLevel, List.mem_singleton] at hp; simp [hp]
  | succ k ih =>
    intro p hp
    simp only [reachLevel, List.mem_flatMap] at hp
    obtain ⟨q, hq, hp⟩ := hp
    by_cases hlen : (q.length : Int) ≤ maxd
    · rw [if_pos hlen] at hp
      obtain ⟨n, _, rfl⟩ := List.mem_map.mp hp
      simp [ih q hq]
    · rw [if_neg hlen] at hp
      cases hp

lemma root_mem_reachList : [] ∈ reachList probe command tstr maxd := by
  simp only [reachList, List.mem_flatMap]
  exact ⟨0, by simp, by simp [reachLevel]⟩

lemma reach_child {p : List (List Char)} {nm : List Char}
    (hp : p ∈ reachList probe command tstr maxd)
    (hlen : (p.length : Int) ≤ maxd)
    (hnm : nm ∈ findSubcommandsL (helpRawOf probe command tstr p)) :
    p ++ [nm] ∈ reachList probe command tstr maxd := by
  simp only [reachList, List.mem_flatMap] at hp ⊢
  obtain ⟨k, hk, hpk⟩ := hp
  have hkl := mem_reachLevel_length probe command tstr maxd k p hpk
  refine ⟨k + 1, ?_, ?_⟩
  · simp only [List.mem_range] at hk ⊢
    have : p.length ≤ maxd.toNat := by omega
    omega
  · simp only [reachLevel, List.mem_flatMap]
    exact ⟨p, hpk, by rw [if_pos hlen]; exact List.mem_map_of_mem _ hnm⟩

lemma extChildren_length_le (p : List (List Char)) (v : List (List (List Char))) :
    (extChildren probe command tstr p v).length ≤
      (findSubcommandsL (helpRawOf probe command tstr p)).length := by
  calc (extChildren probe command tstr p v).length
      ≤ ((findSubcommandsL (helpRawOf probe command tstr p)).map (fun n => p ++ [n])).length :=
        List.length_filter_le _ _
    _ = _ := List.length_map _ _

lemma mem_extChildren {p c : List (List Char)} {v : List (List (List Char))}
    (hc : c ∈ extChildren probe command tstr p v) :
    ∃ nm ∈ findSubcommandsL (helpRawOf probe command tstr p), c = p ++ [nm] ∧ c ∉ v := by
  simp only [extChildren, List.mem_filter, List.mem_map, decide_eq_true_eq] at hc
  obtain ⟨⟨nm, hnm, rfl⟩, hnv⟩ := hc
  exact ⟨nm, hnm, rfl, hnv⟩

/-- Every iteration of the prober loop strictly decreases the measure. -/
lemma extMeasure_step_lt {s : ExtState} (hq : s.q ≠ [])
    (hreach : ∀ p ∈ s.q, p ∈ reachList probe command tstr maxd) :
    extMeasure probe command tstr maxd (extStep probe command tstr maxd s) <
      extMeasure probe command tstr maxd s := by
  obtain ⟨p, qt, hpq⟩ := List.exists_cons_of_ne_nil hq
  by_cases hd : (p.length : Int) > maxd
  · rw [extStep_skip_depth probe command tstr maxd hpq hd]
    simp [extMeasure, hpq]
  · by_cases hv : p ∈ s.visited
    · rw [extStep_skip_vis probe command tstr maxd hpq hd hv]
      simp [extMeasure, hpq]
    · rw [extStep_process probe command tstr maxd hpq hd hv]
      have hpr : p ∈ reachList probe command tstr maxd := hreach p (by simp [hpq])
      have hsum := sum_filter_visited_step (pathWt probe command tstr) s.visited p
        (reachList probe command tstr maxd) hpr hv
      have hch := extChildren_length_le probe command tstr p (s.visited ++ [p])
      simp only [extMeasure, hpq, List.length_cons, List.length_append]
      simp only [pathWt] at hsum
      omega

/-- The frontier stays inside the possibly-visitable set. -/
lemma extStep_reach {s : ExtState}
    (hreach : ∀ p ∈ s.q, p ∈ reachList probe command tstr maxd) :
    ∀ p ∈ (extStep probe command tstr maxd s).q, p ∈ reachList probe command tstr maxd := by
  cases hpq : s.q with
  | nil =>
    rw [extStep_nil probe command tstr maxd hpq]
    exact hreach
  | cons p0 qt =>
    have hqt : ∀ p ∈ qt, p ∈ reachList probe command tstr maxd := by
      intro p hp; exact hreach p (by simp [hpq, hp])
    by_cases hd : (p0.length : Int) > maxd
    · rw [extStep_skip_depth probe command tstr maxd hpq hd]
      exact hqt
    · by_cases hv : p0 ∈ s.visited
      · rw [extStep_skip_vis probe command tstr maxd hpq hd hv]
        exact hqt
      · rw [extStep_process probe command tstr maxd hpq hd hv]
        intro p hp
        rcases List.mem_append.mp hp with h | h
        · exact hqt p h
        · obtain ⟨nm, hnm, rfl, -⟩ := mem_extChildren probe command tstr h
          exact reach_child probe command tstr maxd (hreach p0 (by simp [hpq]))
            (not_lt.mp hd) hnm

/-- With fuel at least the measure, the prober loop drains its frontier. -/
lemma extRun_drain : ∀ (f : Nat) (s : ExtState),
    extMeasure probe command tstr maxd s ≤ f →
    (∀ p ∈ s.q, p ∈ reachList probe command tstr maxd) →
    (extRun probe command tstr maxd f s).q = [] := by
  intro f
  induction f with
  | zero =>
    intro s hm _
    have : s.q.length = 0 := by simp only [extMeasure] at hm; omega
    simpa [extRun] using List.length_eq_zero.mp this
  | succ f ih =>
    intro s hm hreach
    cases hpq : s.q with
    | nil => simp [extRun, hpq]
    | cons p qt =>
      have hne : s.q ≠ [] := by simp [hpq]
      have hlt := extMeasure_step_lt probe command tstr maxd hne hreach
      have := ih (extStep probe command tstr maxd s) (by omega)
        (extStep_reach probe command tstr maxd hreach)
      simpa [extRun, hpq] using this

lemma extRun_of_nil {s : ExtState} (h : s.q = []) :
    ∀ f, extRun probe command tstr maxd f s = s := by
  intro f
  cases f with
  | zero => rfl
  | succ f => simp [extRun, h]

lemma extRun_add : ∀ (a b : Nat) (s : ExtState),
    extRun probe command tstr maxd (a + b) s =
      extRun probe command tstr maxd b (extRun probe command tstr maxd a s) := by
  intro a
  induction a with
  | zero => intro b s; rw [Nat.zero_add]; rfl
  | succ a ih =>
    intro b s
    cases hpq : s.q with
    | nil =>
      rw [extRun_of_nil probe command tstr maxd hpq, extRun_of_nil probe command tstr maxd hpq]
      exact (extRun_of_nil probe command tstr maxd hpq b).symm
    | cons p qt =>
      have h1 : extRun probe command tstr maxd (a + 1 + b) s =
          extRun probe command tstr maxd (a + b) (extStep probe command tstr maxd s) := by
        have : a + 1 + b = (a + b) + 1 := by omega
        rw [this]
        simp [extRun, hpq]
      rw [h1, ih]
      congr 1
      simp [extRun, hpq]


/-- Run-time invariant of the prober loop: `visited_paths` coincides with the
paths of the produced nodes, those paths are distinct and within the depth
bound, every queued or produced nonempty path extends the path of an already
produced node by one extracted subcommand name, and every node is exactly the
record built for its path. -/
structure ExtInv (s : ExtState) : Prop where
  visNodes : ∀ p, p ∈ s.visited ↔ p ∈ s.nodes.map ExtNode.path
  nodupPaths : (s.nodes.map ExtNode.path).Nodup
  depth : ∀ nd ∈ s.nodes, (nd.path.length : Int) ≤ maxd
  provQ : ∀ p ∈ s.q, p = [] ∨ ∃ nd ∈ s.nodes, ∃ nm,
    p = nd.path ++ [nm] ∧ nm ∈ findSubcommandsL (helpRawOf probe command tstr nd.path)
  provN : ∀ x ∈ s.nodes, x.path = [] ∨ ∃ nd ∈ s.nodes, ∃ nm,
    x.path = nd.path ++ [nm] ∧ nm ∈ findSubcommandsL (helpRawOf probe command tstr nd.path)
  content : ∀ nd ∈ s.nodes, nd = extNodeAt probe command tstr nd.path

lemma extInv_init : ExtInv probe command tstr maxd (extInit) := by
  constructor <;> simp [extInit]

lemma extStep_inv {s : ExtState} (h : ExtInv probe command tstr maxd s) :
    ExtInv probe command tstr maxd (extStep probe command tstr maxd s) := by
  cases hpq : s.q with
  | nil => rw [extStep_nil probe command tstr maxd hpq]; exact h
  | cons p0 qt =>
    have hqt : ∀ p ∈ qt, p ∈ s.q := by intro p hp; simp [hpq, hp]
    by_cases hd : (p0.length : Int) > maxd
    · rw [extStep_skip_depth probe command tstr maxd hpq hd]
      exact ⟨h.visNodes, h.nodupPaths, h.depth,
        fun p hp => h.provQ p (hqt p hp), h.provN, h.content⟩
    · by_cases hv : p0 ∈ s.visited
      · rw [extStep_skip_vis probe command tstr maxd hpq hd hv]
        exact ⟨h.visNodes, h.nodupPaths, h.depth,
          fun p hp => h.provQ p (hqt p hp), h.provN, h.content⟩
      · rw [extStep_process probe command tstr maxd hpq hd hv]
        have hpath0 : (extNodeAt probe command tstr p0).path = p0 := rfl
        have hnp : p0 ∉ s.nodes.map ExtNode.path := fun hc => hv ((h.visNodes p0).mpr hc)
        constructor
        · intro p
          simp only [List.mem_append, List.map_append, List.mem_singleton,
            List.map_cons, List.map_nil, hpath0]
          rw [h.visNodes p]
        · simp only [List.map_append, List.map_cons, List.map_nil, hpath0]
          simp only [List.nodup_append, List.nodup_cons, List.nodup_nil]
          refine ⟨h.nodupPaths, by simp, ?_⟩
          intro a ha
          simp only [List.mem_singleton]
          intro hc
          exact hnp (hc ▸ ha)
        · intro nd hnd
          rcases List.mem_append.mp hnd with hnd | hnd
          · exact h.depth nd hnd
          · rw [List.mem_singleton.mp hnd]
            rw [hpath0]
            exact not_lt.mp hd
        · intro p hp
          rcases List.mem_append.mp hp with hp | hp
          · rcases h.provQ p (hqt p hp) with h0 | ⟨nd, hnd, nm, hpe, hnm⟩
            · exact Or.inl h0
            · exact Or.inr ⟨nd, List.mem_append.mpr (Or.inl hnd), nm, hpe, hnm⟩
          · obtain ⟨nm, hnm, rfl, -⟩ := mem_extChildren probe command tstr hp
            exact Or.inr ⟨extNodeAt probe command tstr p0,
              List.mem_append.mpr (Or.inr (by simp)), nm, by rw [hpath0], by rw [hpath0]; exact hnm⟩
        · intro x hx
          rcases List.mem_append.mp hx with hx | hx
          · rcases h.provN x hx with h0 | ⟨nd, hnd, nm, hpe, hnm⟩
            · exact Or.inl h0
            · exact Or.inr ⟨nd, List.mem_append.mpr (Or.inl hnd), nm, hpe, hnm⟩
          · rw [List.mem_singleton.mp hx, hpath0]
            rcases h.provQ p0 (by simp [hpq]) with h0 | ⟨nd, hnd, nm, hpe, hnm⟩
            · exact Or.inl h0
            · exact Or.inr ⟨nd, List.mem_append.mpr (Or.inl hnd), nm, hpe, hnm⟩
        · intro nd hnd
          rcases List.mem_append.mp hnd with hnd | hnd
          · exact h.content nd hnd
          · rw [List.mem_singleton.mp hnd, hpath0]

lemma extRun_inv : ∀ (f : Nat) {s : ExtState}, ExtInv probe command tstr maxd s →
    ExtInv probe command tstr maxd (extRun probe command tstr maxd f s) := by
  intro f
  induction f with
  | zero => intro s h; exact h
  | succ f ih =>
    intro s h
    cases hpq : s.q with
    | nil => simpa [extRun, hpq] using h
    | cons p qt =>
      have := ih (extStep_inv probe command tstr maxd h)
      simpa [extRun, hpq] using this

lemma extStep_nodes_mono {s : ExtState} :
    ∃ t, (extStep probe command tstr maxd s).nodes = s.nodes ++ t := by
  cases hpq : s.q with
  | nil => exact ⟨[], by rw [extStep_nil probe command tstr maxd hpq]; simp⟩
  | cons p0 qt =>
    by_cases hd : (p0.length : Int) > maxd
    · exact ⟨[], by rw [extStep_skip_depth probe command tstr maxd hpq hd]; simp⟩
    · by_cases hv : p0 ∈ s.visited
      · exact ⟨[], by rw [extStep_skip_vis probe command tstr maxd hpq hd hv]; simp⟩
      · exact ⟨[extNodeAt probe command tstr p0],
          by rw [extStep_process probe command tstr maxd hpq hd hv]⟩

lemma extRun_nodes_mono : ∀ (f : Nat) (s : ExtState),
    ∃ t, (extRun probe command tstr maxd f s).nodes = s.nodes ++ t := by
  intro f
  induction f with
  | zero => intro s; exact ⟨[], by simp [extRun]⟩
  | succ f ih =>
    intro s
    cases hpq : s.q with
    | nil => exact ⟨[], by simp [extRun, hpq]⟩
    | cons p qt =>
      obtain ⟨t₁, ht₁⟩ := extStep_nodes_mono probe command tstr maxd (s := s)
      obtain ⟨t₂, ht₂⟩ := ih (extStep probe command tstr maxd s)
      refine ⟨t₁ ++ t₂, ?_⟩
      simp only [extRun, hpq]
      rw [ht₂, ht₁, List.append_assoc]

/-- Every queued path within the depth bound is eventually recorded as a node
(or was already visited), provided the run drains. -/
lemma extRun_complete : ∀ (f : Nat) (s : ExtState),
    (extRun probe command tstr maxd f s).q = [] →
    ∀ p ∈ s.q, ¬ (p.length : Int) > maxd →
      p ∈ (extRun probe command tstr maxd f s).nodes.map ExtNode.path ∨ p ∈ s.visited := by
  intro f
  induction f with
  | zero =>
    intro s hdrain p hp _
    have : s.q = [] := hdrain
    rw [this] at hp
    cases hp
  | succ f ih =>
    intro s hdrain p hp hpd
    cases hpq : s.q with
    | nil => rw [hpq] at hp; cases hp
    | cons p0 qt =>
      rw [hpq] at hp
      have hrun : extRun probe command tstr maxd (f + 1) s =
          extRun probe command tstr maxd f (extStep probe command tstr maxd s) := by
        simp [extRun, hpq]
      rw [hrun] at hdrain ⊢
      by_cases hd : (p0.length : Int) > maxd
      · have hstep := extStep_skip_depth probe command tstr maxd hpq hd
        rcases List.mem_cons.mp hp with rfl | hp
        · exact absurd hd hpd
        · rcases ih (extStep probe command tstr maxd s) hdrain p
              (by rw [hstep]; exact hp) hpd with hL | hR
          · exact Or.inl hL
          · rw [hstep] at hR
            exact Or.inr hR
      · by_cases hv : p0 ∈ s.visited
        · have hstep := extStep_skip_vis probe command tstr maxd hpq hd hv
          rcases List.mem_cons.mp hp with rfl | hp
          · exact Or.inr hv
          · rcases ih (extStep probe command tstr maxd s) hdrain p
                (by rw [hstep]; exact hp) hpd with hL | hR
            · exact Or.inl hL
            · rw [hstep] at hR
              exact Or.inr hR
        · have hstep := extStep_process probe command tstr maxd hpq hd hv
          have hmem0 : p0 ∈ (extRun probe command tstr maxd f
              (extStep probe command tstr maxd s)).nodes.map ExtNode.path := by
            obtain ⟨t, ht⟩ := extRun_nodes_mono probe command tstr maxd f
              (extStep probe command tstr maxd s)
            rw [ht, hstep]
            simp only [List.map_append, List.mem_append]
            left; right
            exact List.mem_map.mpr ⟨extNodeAt probe command tstr p0, by simp, rfl⟩
          rcases List.mem_cons.mp hp with rfl | hp
          · exact Or.inl hmem0
          · have := ih (extStep probe command tstr maxd s) hdrain p
              (by rw [hstep]; exact List.mem_append.mpr (Or.inl hp)) hpd
            rcases this with hL | hR
            · exact Or.inl hL
            · rw [hstep] at hR
              rcases List.mem_append.mp hR with hR | hR
              · exact Or.inr hR
              · rw [List.mem_singleton.mp hR]
                exact Or.inl hmem0

/-- Every extracted child (within the depth bound) of a node produced during
the run is itself recorded as a node. -/
lemma extRun_closure : ∀ (f : Nat) (s : ExtState),
    (extRun probe command tstr maxd f s).q = [] →
    ExtInv probe command tstr maxd s →
    ∀ x ∈ (extRun probe command tstr maxd f s).nodes, x ∉ s.nodes →
    ∀ nm ∈ findSubcommandsL (helpRawOf probe command tstr x.path),
      ¬ ((x.path ++ [nm]).length : Int) > maxd →
      x.path ++ [nm] ∈ (extRun probe command tstr maxd f s).nodes.map ExtNode.path := by
  intro f
  induction f with
  | zero =>
    intro s _ _ x hx hxn
    exact absurd hx hxn
  | succ f ih =>
    intro s hdrain hinv x hx hxn nm hnm hnd
    cases hpq : s.q with
    | nil =>
      rw [extRun_of_nil probe command tstr maxd hpq] at hx
      exact absurd hx hxn
    | cons p0 qt =>
      have hrun : extRun probe command tstr maxd (f + 1) s =
          extRun probe command tstr maxd f (extStep probe command tstr maxd s) := by
        simp [extRun, hpq]
      rw [hrun] at hdrain hx ⊢
      have hinv' := extStep_inv probe command tstr maxd hinv
      by_cases hd : (p0.length : Int) > maxd
      · have hstep := extStep_skip_depth probe command tstr maxd hpq hd
        refine ih (extStep probe command tstr maxd s) hdrain hinv' x hx ?_ nm hnm hnd
        rw [hstep]; exact hxn
      · by_cases hv : p0 ∈ s.visited
        · have hstep := extStep_skip_vis probe command tstr maxd hpq hd hv
          refine ih (extStep probe command tstr maxd s) hdrain hinv' x hx ?_ nm hnm hnd
          rw [hstep]; exact hxn
        · have hstep := extStep_process probe command tstr maxd hpq hd hv
          by_cases hx0 : x = extNodeAt probe command tstr p0
          · have hxpath : x.path = p0 := by rw [hx0]; rfl
            rw [hxpath] at hnm hnd ⊢
            by_cases hcv : p0 ++ [nm] ∈ s.visited ++ [p0]
            · have hne : p0 ++ [nm] ≠ p0 := by
                intro hc
                have := congrArg List.length hc
                simp at this
              have hcv' : p0 ++ [nm] ∈ s.visited := by
                rcases List.mem_append.mp hcv with hcv | hcv
                · exact hcv
                · exact absurd (List.mem_singleton.mp hcv) hne
              have : p0 ++ [nm] ∈ s.nodes.map ExtNode.path :=
                (hinv.visNodes (p0 ++ [nm])).mp hcv'
              obtain ⟨t, ht⟩ := extRun_nodes_mono probe command tstr maxd f
                (extStep probe command tstr maxd s)
              rw [ht, hstep]
              simp only [List.map_append, List.mem_append]
              obtain ⟨y, hy, hyp⟩ := List.mem_map.mp this
              exact Or.inl (Or.inl (List.mem_map.mpr ⟨y, hy, hyp⟩))
            · have hcq : p0 ++ [nm] ∈ (extStep probe command tstr maxd s).q := by
                rw [hstep]
                simp only [List.mem_append]
                right
                simp only [extChildren, List.mem_filter, decide_eq_true_eq]
                exact ⟨List.mem_map.mpr ⟨nm, hnm, rfl⟩, hcv⟩
              have := extRun_complete probe command tstr maxd f
                (extStep probe command tstr maxd s) hdrain (p0 ++ [nm]) hcq hnd
              rcases this with hL | hR
              · exact hL
              · rw [hstep] at hR
                exact absurd hR hcv
          · refine ih (extStep probe command tstr maxd s) hdrain hinv' x hx ?_ nm hnm hnd
            rw [hstep]
            intro hc
            rcases List.mem_append.mp hc with hc | hc
            · exact hxn hc
            · exact hx0 (List.mem_singleton.mp hc)

end ExternalProofs

/-! ## Character-level facts about the extractor -/

lemma mem_of_mem_pyStrip {c : Char} {l : List Char} (h : c ∈ pyStrip l) : c ∈ l := by
  simp only [pyStrip, List.mem_reverse] at h
  have h1 : c ∈ (l.dropWhile isPySpace).reverse := (List.dropWhile_sublist isPySpace).subset h
  rw [List.mem_reverse] at h1
  exact (List.dropWhile_sublist isPySpace).subset h1

lemma mem_splitOnCharAux {sep : Char} {seg : List Char} {c : Char} :
    ∀ (l cur : List Char), seg ∈ splitOnCharAux sep cur l → c ∈ seg → c ∈ cur ∨ c ∈ l := by
  intro l
  induction l with
  | nil =>
    intro cur hseg hc
    simp only [splitOnCharAux, List.mem_singleton] at hseg
    subst hseg
    exact Or.inl (by simpa using hc)
  | cons a l ih =>
    intro cur hseg hc
    simp only [splitOnCharAux] at hseg
    by_cases ha : a = sep
    · rw [if_pos ha] at hseg
      rcases List.mem_cons.mp hseg with rfl | hseg
      · exact Or.inl (by simpa using hc)
      · rcases ih [] hseg hc with h | h
        · cases h
        · exact Or.inr (List.mem_cons_of_mem a h)
    · rw [if_neg ha] at hseg
      rcases ih (a :: cur) hseg hc with h | h
      · rcases List.mem_cons.mp h with rfl | h
        · exact Or.inr (List.mem_cons_self _ _)
        · exact Or.inl h
      · exact Or.inr (List.mem_cons_of_mem a h)

lemma braceScan_chars : ∀ (l run : List Char), braceScan l = some run →
    ∀ c ∈ run, isBraceTok c = true := by
  intro l
  induction l with
  | nil => intro run h; cases h
  | cons a l ih =>
    intro run h c hc
    simp only [braceScan] at h
    by_cases ha : a = lbrace
    · rw [if_pos ha] at h
      by_cases hcond : (!(l.takeWhile isBraceTok).isEmpty &&
          ((l.drop (l.takeWhile isBraceTok).length).head? = some rbrace : Bool)) = true
      · rw [if_pos hcond] at h
        cases h
        exact List.mem_takeWhile_imp hc
      · rw [if_neg hcond] at h
        exact ih run h c hc
    · rw [if_neg ha] at h
      exact ih run h c hc

lemma sectionScan_chars : ∀ (lines : List (List Char)) (b : Bool) (nm : List Char),
    nm ∈ sectionScan b lines → ∀ c ∈ nm, (isWordChar c || c = '-') = true := by
  intro lines
  induction lines with
  | nil => intro b nm h; cases h
  | cons l lines ih =>
    intro b nm h c hc
    simp only [sectionScan] at h
    by_cases h1 : headerStart l = true
    · rw [if_pos h1] at h; exact ih true nm h c hc
    · rw [if_neg h1] at h
      by_cases hb : b = true
      · rw [if_pos hb] at h
        by_cases h2 : endsSection l = true
        · rw [if_pos h2] at h; exact ih false nm h c hc
        · rw [if_neg h2] at h
          by_cases h3 : stripStartsLBrace l = true
          · rw [if_pos h3] at h; exact ih b nm h c hc
          · rw [if_neg h3] at h
            rcases htok : lineToken l with _ | t
            · rw [htok] at h; exact ih b nm h c hc
            · rw [htok] at h
              rcases List.mem_cons.mp h with rfl | h
              · simp only [lineToken] at htok
                by_cases hsp : (l.takeWhile isPySpace).isEmpty = true
                · rw [if_pos hsp] at htok; cases htok
                · rw [if_neg hsp] at htok
                  by_cases htk : ((l.dropWhile isPySpace).takeWhile
                      fun c => isWordChar c || c = '-').isEmpty = true
                  · rw [if_pos htk] at htok; cases htok
                  · rw [if_neg htk] at htok
                    cases htok
                    exact List.mem_takeWhile_imp (p := fun c => isWordChar c || c = '-') hc
              · exact ih b nm h c hc
      · rw [if_neg hb] at h; exact ih false nm h c hc

/-- Every name the extractor returns is made of word characters, commas and
hyphens only (pattern 1 yields comma-free fields of a `[\w,-]+` group and
pattern 2 yields `[\w-]+` tokens). -/
lemma findSubcommandsL_chars {t nm : List Char} (h : nm ∈ findSubcommandsL t) :
    ∀ c ∈ nm, isBraceTok c = true := by
  intro c hc
  have hsec : nm ∈ labeledSection t → isBraceTok c = true := by
    intro hl
    simp only [labeledSection] at hl
    by_cases hp : precheckHeader t = true
    · rw [if_pos hp] at hl
      have := sectionScan_chars (pySplitLines t) false nm hl c hc
      simp only [isBraceTok]
      rcases Bool.or_eq_true_iff.mp this with h1 | h1 <;> simp [h1]
    · rw [if_neg hp] at hl; cases hl
  unfold findSubcommandsL at h
  split at h
  · simp only [] at h
    split at h
    · rename_i s hu run hb
      obtain ⟨seg, hseg, rfl⟩ := List.mem_map.mp h
      have hcs : c ∈ seg := mem_of_mem_pyStrip hc
      rcases mem_splitOnCharAux run [] (by simpa [splitOnChar] using hseg) hcs with h1 | h1
      · cases h1
      · exact braceScan_chars _ run hb c h1
    · exact hsec h
  · exact hsec h

lemma findSubcommandsL_no_newline {t nm : List Char} (h : nm ∈ findSubcommandsL t) :
    '\n' ∉ nm := by
  intro hc
  have := findSubcommandsL_chars h '\n' hc
  simp [isBraceTok, isWordChar, Char.isAlphanum, Char.isAlpha, Char.isDigit,
    Char.isUpper, Char.isLower] at this

lemma mem_joinWith {c : Char} {sep : List Char} :
    ∀ ws : List (List Char), c ∈ joinWith sep ws → c ∈ sep ∨ ∃ w ∈ ws, c ∈ w := by
  intro ws
  induction ws with
  | nil => intro h; cases h
  | cons w ws ih =>
    intro h
    cases ws with
    | nil =>
      simp only [joinWith] at h
      exact Or.inr ⟨w, by simp, h⟩
    | cons w2 ws2 =>
      simp only [joinWith, List.append_assoc, List.mem_append] at h
      rcases h with h | h | h
      · exact Or.inr ⟨w, by simp, h⟩
      · exact Or.inl h
      · rcases ih h with h1 | ⟨w3, hw3, hc3⟩
        · exact Or.inl h1
        · exact Or.inr ⟨w3, by simp [hw3], hc3⟩

/-! ## Placeholder help texts yield no subcommands -/

lemma findUsageAux_false_of_no_nl : ∀ l : List Char, '\n' ∉ l →
    findUsageAux false l = none := by
  intro l
  induction l with
  | nil => intro _; rfl
  | cons a l ih =>
    intro h
    have ha : a ≠ '\n' := fun hc => h (by simp [hc])
    simp only [findUsageAux, Bool.false_and, if_neg]
    have : (a = '\n' : Bool) = false := by simpa using ha
    rw [this]
    exact ih (fun hc => h (List.mem_cons_of_mem a hc))

lemma startsWithCI_usage_bracket (xs : List Char) :
    startsWithCI "usage:".data ('[' :: xs) = false := by
  have h : "usage:".data = 'u' :: "sage:".data := rfl
  rw [h]
  simp only [startsWithCI]
  have : ('u'.toLower = '['.toLower : Bool) = false := by decide
  rw [this, Bool.false_and]

lemma startsWithCI_cons_false {p c : Char} {ps s : List Char}
    (h : (p.toLower = c.toLower : Bool) = false) :
    startsWithCI (p :: ps) (c :: s) = false := by
  simp only [startsWithCI, h, Bool.false_and]

lemma headerStart_bracket (xs : List Char) : headerStart ('[' :: xs) = false := by
  unfold headerStart
  rw [show "commands:".data = 'c' :: "ommands:".data from rfl,
    show "subcommands:".data = 's' :: "ubcommands:".data from rfl,
    show "available commands:".data = 'a' :: "vailable commands:".data from rfl,
    show "positional arguments:".data = 'p' :: "ositional arguments:".data from rfl]
  rw [startsWithCI_cons_false (by decide), startsWithCI_cons_false (by decide),
    startsWithCI_cons_false (by decide), startsWithCI_cons_false (by decide)]
  rfl

lemma splitOnCharAux_no_sep {sep : Char} :
    ∀ (l cur : List Char), sep ∉ l → splitOnCharAux sep cur l = [cur.reverse ++ l] := by
  intro l
  induction l with
  | nil => intro cur _; simp [splitOnCharAux]
  | cons a l ih =>
    intro cur h
    have ha : ¬ a = sep := fun hc => h (by simp [hc])
    simp only [splitOnCharAux, if_neg ha]
    rw [ih (a :: cur) (fun hc => h (List.mem_cons_of_mem a hc))]
    simp

/-- A single-line text starting with `[` (as all synthetic placeholders do)
yields no subcommands: neither a `usage:` line start nor a section header can
occur. -/
lemma findSubcommandsL_single_line_bracket {l : List Char}
    (hnl : '\n' ∉ l) (hhd : ∃ xs, l = '[' :: xs) :
    findSubcommandsL l = [] := by
  obtain ⟨xs, rfl⟩ := hhd
  have hxs : '\n' ∉ xs := fun hc => hnl (List.mem_cons_of_mem _ hc)
  have husage : findUsageAux true ('[' :: xs) = none := by
    simp only [findUsageAux, startsWithCI_usage_bracket, Bool.and_false, if_neg]
    have : ('[' = '\n' : Bool) = false := by decide
    rw [this]
    exact findUsageAux_false_of_no_nl xs hxs
  have hpre : precheckHeader ('[' :: xs) = false := by
    simp only [precheckHeader, splitOnChar]
    rw [splitOnCharAux_no_sep ('[' :: xs) [] hnl]
    simp [headerStart_bracket]
  simp only [findSubcommandsL, husage, labeledSection, hpre]
  simp

/-- `pyStrip` is the identity on a bracket-wrapped text. -/
lemma pyStrip_bracket_wrap (mid : List Char) :
    pyStrip ('[' :: (mid ++ [']'])) = '[' :: (mid ++ [']']) := by
  have h1 : ('[' :: (mid ++ [']'])).dropWhile isPySpace = '[' :: (mid ++ [']']) := by
    rw [List.dropWhile_cons]
    simp [isPySpace]
  have h2 : ('[' :: (mid ++ [']'])).reverse = ']' :: (mid.reverse ++ ['[']) := by
    simp
  simp only [pyStrip, h1, h2]
  rw [List.dropWhile_cons]
  simp [isPySpace]



/-! ## Placeholder nodes of the external prober -/

section ExternalMore

variable (probe : List (List Char) → ProbeOutcome) (command : List (List Char))
variable (tstr : List Char) (maxd : Int)

lemma currentProg_no_newline (hcmd : ∀ tok ∈ command, '\n' ∉ tok)
    {path : List (List Char)} (hpath : ∀ tok ∈ path, '\n' ∉ tok) :
    '\n' ∉ currentProg command path := by
  intro hc
  rcases mem_joinWith (command ++ path) hc with h | ⟨w, hw, hcw⟩
  · simp at h
  · rcases List.mem_append.mp hw with hw | hw
    · exact hcmd w hw hcw
    · exact hpath w hw hcw

lemma helpRawOf_notFound {p : List (List Char)}
    (hp : probe (command ++ p ++ ["--help".data]) = .notFound) :
    helpRawOf probe command tstr p =
      "[Error: command not found: \x27".data ++ currentProg command p ++ "\x27]".data := by
  unfold helpRawOf
  rw [hp]

lemma helpRawOf_timedOut {p : List (List Char)}
    (hp : probe (command ++ p ++ ["--help".data]) = .timedOut) :
    helpRawOf probe command tstr p =
      "[Error: command timed out after ".data ++ tstr ++ " seconds]".data := by
  unfold helpRawOf
  rw [hp]

lemma notFound_no_newline {p : List (List Char)}
    (hnp : '\n' ∉ currentProg command p) :
    '\n' ∉ "[Error: command not found: \x27".data ++ currentProg command p ++ "\x27]".data := by
  intro hc
  rcases List.mem_append.mp hc with hc | hc
  · rcases List.mem_append.mp hc with hc | hc
    · revert hc; decide
    · exact hnp hc
  · revert hc; decide

lemma timedOut_no_newline (hnt : '\n' ∉ tstr) :
    '\n' ∉ "[Error: command timed out after ".data ++ tstr ++ " seconds]".data := by
  intro hc
  rcases List.mem_append.mp hc with hc | hc
  · rcases List.mem_append.mp hc with hc | hc
    · revert hc; decide
    · exact hnt hc
  · revert hc; decide

lemma extract_notFound_empty {p : List (List Char)}
    (hp : probe (command ++ p ++ ["--help".data]) = .notFound)
    (hnp : '\n' ∉ currentProg command p) :
    findSubcommandsL (helpRawOf probe command tstr p) = [] := by
  rw [helpRawOf_notFound probe command tstr hp]
  apply findSubcommandsL_single_line_bracket (notFound_no_newline command hnp)
  refine ⟨"Error: command not found: \x27".data ++ currentProg command p ++ "\x27]".data, ?_⟩
  rw [show "[Error: command not found: \x27".data =
    '[' :: "Error: command not found: \x27".data from rfl]
  simp

lemma extract_timedOut_empty {p : List (List Char)}
    (hp : probe (command ++ p ++ ["--help".data]) = .timedOut)
    (hnt : '\n' ∉ tstr) :
    findSubcommandsL (helpRawOf probe command tstr p) = [] := by
  rw [helpRawOf_timedOut probe command tstr hp]
  apply findSubcommandsL_single_line_bracket (timedOut_no_newline tstr hnt)
  refine ⟨"Error: command timed out after ".data ++ tstr ++ " seconds]".data, ?_⟩
  rw [show "[Error: command timed out after ".data =
    '[' :: "Error: command timed out after ".data from rfl]
  simp

lemma pyStrip_notFound_eq (prog : List Char) :
    pyStrip ("[Error: command not found: \x27".data ++ prog ++ "\x27]".data) =
      "[Error: command not found: \x27".data ++ prog ++ "\x27]".data := by
  have h : "[Error: command not found: \x27".data ++ prog ++ "\x27]".data =
      '[' :: (("Error: command not found: \x27".data ++ prog ++ ['\x27']) ++ [']']) := by
    rw [show "[Error: command not found: \x27".data =
      '[' :: "Error: command not found: \x27".data from rfl,
      show "\x27]".data = ['\x27'] ++ [']'] from rfl]
    simp
  rw [h, pyStrip_bracket_wrap]

lemma pyStrip_timedOut_eq :
    pyStrip ("[Error: command timed out after ".data ++ tstr ++ " seconds]".data) =
      "[Error: command timed out after ".data ++ tstr ++ " seconds]".data := by
  have h : "[Error: command timed out after ".data ++ tstr ++ " seconds]".data =
      '[' :: (("Error: command timed out after ".data ++ tstr ++ " seconds".data) ++ [']']) := by
    rw [show "[Error: command timed out after ".data =
      '[' :: "Error: command timed out after ".data from rfl,
      show " seconds]".data = " seconds".data ++ [']'] from rfl]
    simp
  rw [h, pyStrip_bracket_wrap]

/-- In a run whose produced paths are distinct and provenance-closed, a node
whose help text yields no subcommands has no strict descendant. -/
lemma no_descendants {ns : List ExtNode}
    (hnodup : (ns.map ExtNode.path).Nodup)
    (hprov : ∀ x ∈ ns, x.path = [] ∨ ∃ nd ∈ ns, ∃ nm, x.path = nd.path ++ [nm] ∧
      nm ∈ findSubcommandsL (helpRawOf probe command tstr nd.path))
    {P : ExtNode} (hP : P ∈ ns)
    (hPx : findSubcommandsL (helpRawOf probe command tstr P.path) = []) :
    ∀ suf, ∀ X ∈ ns, X.path = P.path ++ suf → suf = [] := by
  intro suf
  induction suf using List.reverseRecOn with
  | nil => intro X _ _; rfl
  | append_singleton init last ih =>
    intro X hX hpath
    exfalso
    have hXne : X.path ≠ [] := by
      rw [hpath]
      intro hc
      have := congrArg List.length hc
      simp at this
    rcases hprov X hX with h0 | ⟨nd, hnd, nm, hx, hnm⟩
    · exact hXne h0
    · rw [hx, ← List.append_assoc] at hpath
      have hlen : nd.path.length = (P.path ++ init).length := by
        have := congrArg List.length hpath
        simp only [List.length_append, List.length_cons, List.length_nil,
          List.length_singleton] at this ⊢
        omega
      obtain ⟨h1, h2⟩ := List.append_inj hpath hlen
      have hinit : init = [] := ih nd hnd h1
      rw [hinit, List.append_nil] at h1
      have hnd' : nd = P := List.inj_on_of_nodup_map hnodup hnd hP (by rw [h1])
      rw [hnd', hPx] at hnm
      cases hnm

/-! ### The final state of a full run -/

lemma extInit_reach : ∀ p ∈ (extInit : ExtState).q, p ∈ reachList probe command tstr maxd := by
  intro p hp
  simp only [extInit, List.mem_singleton] at hp
  rw [hp]
  exact root_mem_reachList probe command tstr maxd

lemma extFinal_drained :
    (extRun probe command tstr maxd (extFuel probe command tstr maxd) extInit).q = [] :=
  extRun_drain probe command tstr maxd _ _ le_rfl (extInit_reach probe command tstr maxd)

lemma extFinal_inv :
    ExtInv probe command tstr maxd
      (extRun probe command tstr maxd (extFuel probe command tstr maxd) extInit) :=
  extRun_inv probe command tstr maxd _ (extInv_init probe command tstr maxd)

lemma extNodes_nodup : ((extNodes probe command tstr maxd).map ExtNode.path).Nodup :=
  (extFinal_inv probe command tstr maxd).nodupPaths

lemma extNodes_depth : ∀ nd ∈ extNodes probe command tstr maxd, (nd.path.length : Int) ≤ maxd :=
  (extFinal_inv probe command tstr maxd).depth

lemma extNodes_content :
    ∀ nd ∈ extNodes probe command tstr maxd, nd = extNodeAt probe command tstr nd.path :=
  (extFinal_inv probe command tstr maxd).content

lemma extNodes_prov : ∀ x ∈ extNodes probe command tstr maxd,
    x.path = [] ∨ ∃ nd ∈ extNodes probe command tstr maxd, ∃ nm,
      x.path = nd.path ++ [nm] ∧ nm ∈ findSubcommandsL (helpRawOf probe command tstr nd.path) :=
  (extFinal_inv probe command tstr maxd).provN

lemma extNodes_closure : ∀ nd ∈ extNodes probe command tstr maxd,
    ∀ nm ∈ findSubcommandsL (helpRawOf probe command tstr nd.path),
      ¬ ((nd.path ++ [nm]).length : Int) > maxd →
      nd.path ++ [nm] ∈ (extNodes probe command tstr maxd).map ExtNode.path := by
  intro nd hnd nm hnm hdep
  exact extRun_closure probe command tstr maxd _ extInit
    (extFinal_drained probe command tstr maxd) (extInv_init probe command tstr maxd)
    nd hnd (by simp [extInit]) nm hnm hdep

lemma extFuel_pos : 1 ≤ extFuel probe command tstr maxd := by
  unfold extFuel extMeasure
  simp [extInit]

lemma extRun_nodes_all_deep : ∀ (f : Nat) (s : ExtState),
    (∀ p ∈ s.q, (p.length : Int) > maxd) →
    (extRun probe command tstr maxd f s).nodes = s.nodes := by
  intro f
  induction f with
  | zero => intro s _; rfl
  | succ f ih =>
    intro s hdeep
    cases hpq : s.q with
    | nil => simp [extRun, hpq]
    | cons p qt =>
      have hd : (p.length : Int) > maxd := hdeep p (by simp [hpq])
      have hstep := extStep_skip_depth probe command tstr maxd hpq hd
      have : extRun probe command tstr maxd (f + 1) s =
          extRun probe command tstr maxd f (extStep probe command tstr maxd s) := by
        simp [extRun, hpq]
      rw [this, hstep]
      exact ih _ (fun p2 hp2 => hdeep p2 (by simp [hpq]; right; exact hp2))

lemma extStep_init (h : 0 ≤ maxd) :
    extStep probe command tstr maxd extInit =
      { q := extChildren probe command tstr [] [[]],
        visited := [[]],
        nodes := [extNodeAt probe command tstr []] } := by
  have hpq : (extInit : ExtState).q = [] :: [] := rfl
  have hd : ¬ (([] : List (List Char)).length : Int) > maxd := by
    simp
    omega
  have hv : ([] : List (List Char)) ∉ (extInit : ExtState).visited := by simp [extInit]
  rw [extStep_process probe command tstr maxd hpq hd hv]
  simp [extInit]

/-- With a nonnegative depth bound, the root node is produced first. -/
lemma extNodes_head (h : 0 ≤ maxd) : ∃ t,
    extNodes probe command tstr maxd = extNodeAt probe command tstr [] :: t := by
  obtain ⟨k, hk⟩ : ∃ k, extFuel probe command tstr maxd = k + 1 :=
    ⟨extFuel probe command tstr maxd - 1, by
      have := extFuel_pos probe command tstr maxd
      omega⟩
  unfold extNodes
  rw [hk]
  have hrun : extRun probe command tstr maxd (k + 1) extInit =
      extRun probe command tstr maxd k (extStep probe command tstr maxd extInit) := by
    simp [extRun, extInit]
  rw [hrun, extStep_init probe command tstr maxd h]
  obtain ⟨t, ht⟩ := extRun_nodes_mono probe command tstr maxd k
    { q := extChildren probe command tstr [] [[]],
      visited := [[]],
      nodes := [extNodeAt probe command tstr []] }
  rw [ht]
  exact ⟨t, rfl⟩

/-- With `max_depth = 0` the run produces exactly the root node. -/
lemma extNodes_depth_zero (h : maxd = 0) :
    extNodes probe command tstr maxd = [extNodeAt probe command tstr []] := by
  obtain ⟨k, hk⟩ : ∃ k, extFuel probe command tstr maxd = k + 1 :=
    ⟨extFuel probe command tstr maxd - 1, by
      have := extFuel_pos probe command tstr maxd
      omega⟩
  unfold extNodes
  rw [hk]
  have hrun : extRun probe command tstr maxd (k + 1) extInit =
      extRun probe command tstr maxd k (extStep probe command tstr maxd extInit) := by
    simp [extRun, extInit]
  rw [hrun, extStep_init probe command tstr maxd (by omega)]
  apply extRun_nodes_all_deep
  intro p hp
  obtain ⟨nm, hnm, rfl, -⟩ := mem_extChildren probe command tstr hp
  simp [h]

end ExternalMore


/-! ## In-process walker (`_walk_parser_tree`, core.py lines 61-94) -/

/-- One argparse parser object: its `prog` string and, for each
`_SubParsersAction` among its `_actions`, the `choices` mapping from
subcommand name to subparser, with the subparser represented by its index in
the store (indices model object identity, `id()`). -/
structure ParserData where
  prog : List Char
  actions : List (List (List Char × Nat))
  deriving Repr

/-- The `(name, subparser)` choices of all subparser actions of parser `pid`,
in iteration order of the two nested loops at core.py lines 84-87. -/
def childPairs (parsers : List ParserData) (pid : Nat) : List (List Char × Nat) :=
  (parsers.getD pid ⟨[], []⟩).actions.flatMap (fun a => a)

/-- A `_ParserNode` yielded by `_walk_parser_tree`: path plus parser object. -/
structure WNode where
  path : List (List Char)
  pid : Nat
  deriving DecidableEq, Repr

/-- State of the walker loop: FIFO queue, identity-based `visited_parsers`
set (as a list of object ids) and the nodes yielded so far. -/
structure WalkState where
  q : List WNode
  visited : List Nat
  nodes : List WNode
  deriving Repr

/-- The two nested loops at core.py lines 84-91: walk the child pairs of the
dequeued node, enqueueing (and marking visited) every subparser object not
already visited. -/
def walkEnq (nd : WNode) : List (List Char × Nat) → List WNode → List Nat →
    List WNode × List Nat
  | [], q, vis => (q, vis)
  | (nm, c) :: rest, q, vis =>
    if c ∈ vis then walkEnq nd rest q vis
    else walkEnq nd rest (q ++ [⟨nd.path ++ [nm], c⟩]) (vis ++ [c])

/-- One iteration of the `while q:` loop (core.py lines 80-91): dequeue,
yield, then enqueue unvisited children. -/
def walkStep (parsers : List ParserData) (s : WalkState) : WalkState :=
  match s.q with
  | [] => s
  | nd :: qt =>
    let qv := walkEnq nd (childPairs parsers nd.pid) qt s.visited
    ⟨qv.1, qv.2, s.nodes ++ [nd]⟩

/-- The walker loop with explicit fuel (`walkFuel` below is proved enough). -/
def walkRun (parsers : List ParserData) : Nat → WalkState → WalkState
  | 0, s => s
  | n + 1, s =>
    match s.q with
    | [] => s
    | _ :: _ => walkRun parsers n (walkStep parsers s)

/-- Initial state: queue holds the root, `visited_parsers = {id(root_parser)}`. -/
def walkInit (rootId : Nat) : WalkState := ⟨[⟨[], rootId⟩], [rootId], []⟩

/-- Sufficient fuel for the walker: one iteration per queue entry, and each
object is enqueued at most once. -/
def walkFuel (parsers : List ParserData) (rootId : Nat) : Nat :=
  (1 + (childPairs parsers rootId).length) +
    (((List.range parsers.length).map
      (fun pid => 1 + (childPairs parsers pid).length)).sum + 1)

/-- The `_ParserNode` list produced by `list(_walk_parser_tree(root, prog))`
(the `prog` override does not influence which nodes are yielded). -/
def walkNodes (parsers : List ParserData) (rootId : Nat) : List WNode :=
  (walkRun parsers (walkFuel parsers rootId) (walkInit rootId)).nodes

/-- Well-formed store: every registered subparser is an object of the store. -/
def WfStore (parsers : List ParserData) : Prop :=
  ∀ pid < parsers.length, ∀ pr ∈ childPairs parsers pid, pr.2 < parsers.length

/-- The argparse invariant that one parser has at most one subparsers action
and the `choices` dict has unique keys: the subcommand names registered on
one parser are distinct. -/
def NodupNames (parsers : List ParserData) : Prop :=
  ∀ pid < parsers.length, ((childPairs parsers pid).map Prod.fst).Nodup

lemma childPairs_oob {parsers : List ParserData} {pid : Nat}
    (h : parsers.length ≤ pid) : childPairs parsers pid = [] := by
  unfold childPairs
  rw [List.getD_eq_default]
  · rfl
  · omega

lemma wfStore_all {parsers : List ParserData} (h : WfStore parsers) :
    ∀ pid, ∀ pr ∈ childPairs parsers pid, pr.2 < parsers.length := by
  intro pid pr hpr
  by_cases hpid : pid < parsers.length
  · exact h pid hpid pr hpr
  · rw [childPairs_oob (by omega)] at hpr
    cases hpr

lemma nodupNames_all {parsers : List ParserData} (h : NodupNames parsers) :
    ∀ pid, ((childPairs parsers pid).map Prod.fst).Nodup := by
  intro pid
  by_cases hpid : pid < parsers.length
  · exact h pid hpid
  · rw [childPairs_oob (by omega)]
    simp


/-! ### Invariants of the walker -/

/-- Run-time invariant of the walker loop: the paths of yielded and queued
nodes are pairwise distinct; every nonempty such path extends a yielded
node's path by one registered subcommand name whose object id is already
visited; and all visited ids are store indices. -/
structure WalkInv (parsers : List ParserData) (s : WalkState) : Prop where
  nodupPaths : ((s.nodes ++ s.q).map WNode.path).Nodup
  prov : ∀ X ∈ s.nodes ++ s.q, X.path ≠ [] → ∃ Y ∈ s.nodes, ∃ nm,
    X.path = Y.path ++ [nm] ∧ (nm, X.pid) ∈ childPairs parsers Y.pid ∧ X.pid ∈ s.visited
  visLt : ∀ id ∈ s.visited, id < parsers.length

lemma walkEnq_inv (parsers : List ParserData)
    (HN : ∀ pid, ((childPairs parsers pid).map Prod.fst).Nodup)
    (HWF : ∀ pid, ∀ pr ∈ childPairs parsers pid, pr.2 < parsers.length)
    (nodes2 : List WNode) (nd : WNode) (hnd : nd ∈ nodes2) :
    ∀ (pairs : List (List Char × Nat)) (q : List WNode) (vis : List Nat),
    (∀ pr ∈ pairs, pr ∈ childPairs parsers nd.pid) →
    ((nodes2 ++ q).map WNode.path).Nodup →
    (∀ X ∈ nodes2 ++ q, X.path ≠ [] → ∃ Y ∈ nodes2, ∃ nm, X.path = Y.path ++ [nm] ∧
      (nm, X.pid) ∈ childPairs parsers Y.pid ∧ X.pid ∈ vis) →
    (∀ id ∈ vis, id < parsers.length) →
    ((nodes2 ++ (walkEnq nd pairs q vis).1).map WNode.path).Nodup ∧
    (∀ X ∈ nodes2 ++ (walkEnq nd pairs q vis).1, X.path ≠ [] → ∃ Y ∈ nodes2, ∃ nm,
      X.path = Y.path ++ [nm] ∧ (nm, X.pid) ∈ childPairs parsers Y.pid ∧
      X.pid ∈ (walkEnq nd pairs q vis).2) ∧
    (∀ id ∈ (walkEnq nd pairs q vis).2, id < parsers.length) := by
  intro pairs
  induction pairs with
  | nil =>
    intro q vis _ hA hB hC
    exact ⟨hA, hB, hC⟩
  | cons pr rest ih =>
    intro q vis hsub hA hB hC
    obtain ⟨nm, c⟩ := pr
    by_cases hcv : c ∈ vis
    · rw [show walkEnq nd ((nm, c) :: rest) q vis = walkEnq nd rest q vis by
        simp [walkEnq, hcv]]
      exact ih q vis (fun pr2 h2 => hsub pr2 (List.mem_cons_of_mem _ h2)) hA hB hC
    · rw [show walkEnq nd ((nm, c) :: rest) q vis =
          walkEnq nd rest (q ++ [⟨nd.path ++ [nm], c⟩]) (vis ++ [c]) by
        simp [walkEnq, hcv]]
      have hpair : (nm, c) ∈ childPairs parsers nd.pid := hsub (nm, c) (by simp)
      have hfresh : nd.path ++ [nm] ∉ (nodes2 ++ q).map WNode.path := by
        intro hmem
        obtain ⟨X, hX, hXpath⟩ := List.mem_map.mp hmem
        have hXne : X.path ≠ [] := by
          rw [hXpath]
          intro hc
          have := congrArg List.length hc
          simp at this
        obtain ⟨Y, hY, nm2, hXe, hpair2, hXvis⟩ := hB X hX hXne
        rw [hXe] at hXpath
        have hlen : Y.path.length = nd.path.length := by
          have := congrArg List.length hXpath
          simp at this
          omega
        obtain ⟨hYpath, hnm2⟩ := List.append_inj hXpath hlen
        have hYnd : Y = nd := by
          have hsubA : (nodes2.map WNode.path).Nodup := by
            rw [List.map_append] at hA
            exact hA.of_append_left
          exact List.inj_on_of_nodup_map hsubA hY hnd hYpath
        rw [hYnd] at hpair2
        have hnm2' : nm2 = nm := by
          injection hnm2 with h1 _
        rw [hnm2'] at hpair2
        have : (nm, X.pid) = (nm, c) :=
          List.inj_on_of_nodup_map (HN nd.pid) hpair2 hpair rfl
        have hXc : X.pid = c := by injection this
        rw [hXc] at hXvis
        exact hcv hXvis
      refine ih (q ++ [⟨nd.path ++ [nm], c⟩]) (vis ++ [c])
        (fun pr2 h2 => hsub pr2 (List.mem_cons_of_mem _ h2)) ?_ ?_ ?_
      · rw [← List.append_assoc, List.map_append, List.nodup_append]
        refine ⟨hA, by simp, ?_⟩
        intro a ha
        simp only [List.map_cons, List.map_nil, List.mem_singleton]
        intro hc
        subst hc
        exact hfresh ha
      · intro X hX hXne
        rw [← List.append_assoc] at hX
        rcases List.mem_append.mp hX with hX | hX
        · obtain ⟨Y, hY, nm2, h1, h2, h3⟩ := hB X hX hXne
          exact ⟨Y, hY, nm2, h1, h2, List.mem_append.mpr (Or.inl h3)⟩
        · rw [List.mem_singleton.mp hX]
          exact ⟨nd, hnd, nm, rfl, hpair, by simp⟩
      · intro id hid
        rcases List.mem_append.mp hid with hid | hid
        · exact hC id hid
        · rw [List.mem_singleton.mp hid]
          exact HWF nd.pid (nm, c) hpair

lemma walkStep_inv {parsers : List ParserData}
    (HN : ∀ pid, ((childPairs parsers pid).map Prod.fst).Nodup)
    (HWF : ∀ pid, ∀ pr ∈ childPairs parsers pid, pr.2 < parsers.length)
    {s : WalkState} (h : WalkInv parsers s) :
    WalkInv parsers (walkStep parsers s) := by
  cases hpq : s.q with
  | nil =>
    have : walkStep parsers s = s := by simp [walkStep, hpq]
    rw [this]
    exact h
  | cons nd qt =>
    have hstep : walkStep parsers s =
        ⟨(walkEnq nd (childPairs parsers nd.pid) qt s.visited).1,
         (walkEnq nd (childPairs parsers nd.pid) qt s.visited).2,
         s.nodes ++ [nd]⟩ := by
      simp [walkStep, hpq]
    have hre : s.nodes ++ s.q = (s.nodes ++ [nd]) ++ qt := by
      rw [hpq]
      simp
    have hA : (((s.nodes ++ [nd]) ++ qt).map WNode.path).Nodup := by
      rw [← hre]
      exact h.nodupPaths
    have hB : ∀ X ∈ (s.nodes ++ [nd]) ++ qt, X.path ≠ [] → ∃ Y ∈ s.nodes ++ [nd], ∃ nm,
        X.path = Y.path ++ [nm] ∧ (nm, X.pid) ∈ childPairs parsers Y.pid ∧
        X.pid ∈ s.visited := by
      intro X hX hXne
      rw [← hre] at hX
      obtain ⟨Y, hY, nm, h1, h2, h3⟩ := h.prov X hX hXne
      exact ⟨Y, List.mem_append.mpr (Or.inl hY), nm, h1, h2, h3⟩
    obtain ⟨hA', hB', hC'⟩ := walkEnq_inv parsers HN HWF (s.nodes ++ [nd]) nd
      (by simp) (childPairs parsers nd.pid) qt s.visited (fun pr h => h) hA hB h.visLt
    rw [hstep]
    exact ⟨hA', hB', hC'⟩

lemma walkRun_inv {parsers : List ParserData}
    (HN : ∀ pid, ((childPairs parsers pid).map Prod.fst).Nodup)
    (HWF : ∀ pid, ∀ pr ∈ childPairs parsers pid, pr.2 < parsers.length) :
    ∀ (f : Nat) {s : WalkState}, WalkInv parsers s →
      WalkInv parsers (walkRun parsers f s) := by
  intro f
  induction f with
  | zero => intro s h; exact h
  | succ f ih =>
    intro s h
    cases hpq : s.q with
    | nil => simpa [walkRun, hpq] using h
    | cons nd qt =>
      have := ih (walkStep_inv HN HWF h)
      simpa [walkRun, hpq] using this

lemma walkInit_inv {parsers : List ParserData} {rootId : Nat}
    (hroot : rootId < parsers.length) :
    WalkInv parsers (walkInit rootId) := by
  constructor
  · simp [walkInit]
  · intro X hX hXne
    simp only [walkInit, List.nil_append, List.mem_singleton] at hX
    rw [hX] at hXne
    simp at hXne
  · intro id hid
    simp only [walkInit, List.mem_singleton] at hid
    rw [hid]
    exact hroot

lemma walkStep_nodes_mono {parsers : List ParserData} {s : WalkState} :
    ∃ t, (walkStep parsers s).nodes = s.nodes ++ t := by
  cases hpq : s.q with
  | nil => exact ⟨[], by simp [walkStep, hpq]⟩
  | cons nd qt => exact ⟨[nd], by simp [walkStep, hpq]⟩

lemma walkRun_nodes_mono (parsers : List ParserData) : ∀ (f : Nat) (s : WalkState),
    ∃ t, (walkRun parsers f s).nodes = s.nodes ++ t := by
  intro f
  induction f with
  | zero => intro s; exact ⟨[], by simp [walkRun]⟩
  | succ f ih =>
    intro s
    cases hpq : s.q with
    | nil => exact ⟨[], by simp [walkRun, hpq]⟩
    | cons nd qt =>
      obtain ⟨t₁, ht₁⟩ := @walkStep_nodes_mono parsers s
      obtain ⟨t₂, ht₂⟩ := ih (walkStep parsers s)
      refine ⟨t₁ ++ t₂, ?_⟩
      simp only [walkRun, hpq]
      rw [ht₂, ht₁, List.append_assoc]

/-- The walker yields the root node first. -/
lemma walkNodes_head (parsers : List ParserData) (rootId : Nat) :
    ∃ t, walkNodes parsers rootId = ⟨[], rootId⟩ :: t := by
  unfold walkNodes walkFuel
  rw [show (1 + (childPairs parsers rootId).length) +
      (((List.range parsers.length).map
        (fun pid => 1 + (childPairs parsers pid).length)).sum + 1) =
      ((1 + (childPairs parsers rootId).length) +
      ((List.range parsers.length).map
        (fun pid => 1 + (childPairs parsers pid).length)).sum) + 1 from by omega]
  have hq : (walkInit rootId).q = ⟨[], rootId⟩ :: [] := rfl
  have hrun : ∀ k, walkRun parsers (k + 1) (walkInit rootId) =
      walkRun parsers k (walkStep parsers (walkInit rootId)) := by
    intro k
    simp [walkRun, hq]
  rw [hrun]
  obtain ⟨t, ht⟩ := walkRun_nodes_mono parsers _ (walkStep parsers (walkInit rootId))
  rw [ht]
  have : (walkStep parsers (walkInit rootId)).nodes = [⟨[], rootId⟩] := by
    simp [walkStep, walkInit]
  rw [this]
  exact ⟨t, rfl⟩

/-- The walker's node paths are pairwise distinct (given the argparse
well-formedness of the store). -/
lemma walkNodes_nodup {parsers : List ParserData} {rootId : Nat}
    (HN : NodupNames parsers) (HWF : WfStore parsers)
    (hroot : rootId < parsers.length) :
    ((walkNodes parsers rootId).map WNode.path).Nodup := by
  have h := walkRun_inv (nodupNames_all HN) (wfStore_all HWF)
    (walkFuel parsers rootId) (walkInit_inv hroot)
  have := h.nodupPaths
  rw [List.map_append] at this
  exact this.of_append_left

lemma countP_eq_one_of_nodup_mem {α : Type} [DecidableEq α] {l : List α} {a : α}
    (hn : l.Nodup) (ha : a ∈ l) : l.countP (fun x => decide (x = a)) = 1 := by
  induction l with
  | nil => cases ha
  | cons b l ih =>
    rcases List.mem_cons.mp ha with rfl | ha
    · rw [List.countP_cons_of_pos _ _ (by simp)]
      have h0 : l.countP (fun x => decide (x = a)) = 0 := by
        rw [List.countP_eq_zero]
        intro x hx
        simp only [decide_eq_true_eq]
        intro hc
        subst hc
        exact (List.nodup_cons.mp hn).1 hx
      omega
    · have hb : b ≠ a := by
        intro hc
        subst hc
        exact (List.nodup_cons.mp hn).1 ha
      rw [List.countP_cons_of_neg _ _ (by simpa using hb)]
      exact ih (List.nodup_cons.mp hn).2 ha

/-- The walker yields the empty (root) path exactly once. -/
lemma walkNodes_root_once {parsers : List ParserData} {rootId : Nat}
    (HN : NodupNames parsers) (HWF : WfStore parsers)
    (hroot : rootId < parsers.length) :
    ((walkNodes parsers rootId).map WNode.path).countP
      (fun p => decide (p = [])) = 1 := by
  obtain ⟨t, ht⟩ := walkNodes_head parsers rootId
  have hmem : ([] : List (List Char)) ∈ (walkNodes parsers rootId).map WNode.path := by
    rw [ht]
    simp
  exact countP_eq_one_of_nodup_mem (walkNodes_nodup HN HWF hroot) hmem


/-! ### Termination of the walker loop -/

lemma sum_filter_visited_step_nat (wt : Nat → Nat) (v : List Nat) (p : Nat) :
    ∀ l : List Nat, p ∈ l → p ∉ v →
      ((l.filter (fun x => decide (x ∉ v ++ [p]))).map wt).sum + wt p ≤
        ((l.filter (fun x => decide (x ∉ v))).map wt).sum := by
  intro l
  induction l with
  | nil => intro h; cases h
  | cons a l ih =>
    intro hl hv
    by_cases hap : a = p
    · subst hap
      rw [List.filter_cons_of_neg (by simp), List.filter_cons_of_pos (by simpa using hv)]
      have hsub := filter_sublist_filter_of_imp
        (fun x => decide (x ∉ v ++ [a])) (fun x => decide (x ∉ v))
        (by intro x hx; simp only [decide_eq_true_eq, List.mem_append] at hx ⊢; tauto) l
      have := sum_map_le_of_sublist wt hsub
      simp only [List.map_cons, List.sum_cons]
      omega
    · have hpl : p ∈ l := by
        rcases List.mem_cons.mp hl with h | h
        · exact absurd h.symm hap
        · exact h
      by_cases hav : a ∈ v
      · rw [List.filter_cons_of_neg (by simp [hav]), List.filter_cons_of_neg (by simp [hav])]
        exact ih hpl hv
      · have ha1 : a ∉ v ++ [p] := by simp [hav, hap]
        rw [List.filter_cons_of_pos (by simpa using ha1),
          List.filter_cons_of_pos (by simpa using hav)]
        have := ih hpl hv
        simp only [List.map_cons, List.sum_cons]
        omega

/-- Weight of a queue entry in the walker's termination measure. -/
def wtW (parsers : List ParserData) (nd : WNode) : Nat :=
  1 + (childPairs parsers nd.pid).length

/-- Weight of a not-yet-visited parser object. -/
def wtP (parsers : List ParserData) (pid : Nat) : Nat :=
  1 + (childPairs parsers pid).length

/-- Termination measure of the walker loop. -/
def walkMeasure (parsers : List ParserData) (s : WalkState) : Nat :=
  (s.q.map (wtW parsers)).sum +
    (((List.range parsers.length).filter
      (fun pid => decide (pid ∉ s.visited))).map (wtP parsers)).sum

lemma walkEnq_measure (parsers : List ParserData)
    (HWF : ∀ pid, ∀ pr ∈ childPairs parsers pid, pr.2 < parsers.length)
    (nd : WNode) :
    ∀ (pairs : List (List Char × Nat)) (q : List WNode) (vis : List Nat),
    (∀ pr ∈ pairs, pr ∈ childPairs parsers nd.pid) →
    ((walkEnq nd pairs q vis).1.map (wtW parsers)).sum +
      (((List.range parsers.length).filter
        (fun pid => decide (pid ∉ (walkEnq nd pairs q vis).2))).map (wtP parsers)).sum ≤
    (q.map (wtW parsers)).sum +
      (((List.range parsers.length).filter
        (fun pid => decide (pid ∉ vis))).map (wtP parsers)).sum := by
  intro pairs
  induction pairs with
  | nil => intro q vis _; exact le_refl _
  | cons pr rest ih =>
    intro q vis hsub
    obtain ⟨nm, c⟩ := pr
    by_cases hcv : c ∈ vis
    · rw [show walkEnq nd ((nm, c) :: rest) q vis = walkEnq nd rest q vis by
        simp [walkEnq, hcv]]
      exact ih q vis (fun pr2 h2 => hsub pr2 (List.mem_cons_of_mem _ h2))
    · rw [show walkEnq nd ((nm, c) :: rest) q vis =
          walkEnq nd rest (q ++ [⟨nd.path ++ [nm], c⟩]) (vis ++ [c]) by
        simp [walkEnq, hcv]]
      have hc : c < parsers.length := HWF nd.pid (nm, c) (hsub (nm, c) (by simp))
      have hstep := sum_filter_visited_step_nat (wtP parsers) vis c
        (List.range parsers.length) (by simp [hc]) hcv
      have hih := ih (q ++ [⟨nd.path ++ [nm], c⟩]) (vis ++ [c])
        (fun pr2 h2 => hsub pr2 (List.mem_cons_of_mem _ h2))
      have hq : ((q ++ [(⟨nd.path ++ [nm], c⟩ : WNode)]).map (wtW parsers)).sum =
          (q.map (wtW parsers)).sum + wtW parsers (⟨nd.path ++ [nm], c⟩ : WNode) := by
        simp
      have hwt : wtW parsers (⟨nd.path ++ [nm], c⟩ : WNode) = wtP parsers c := rfl
      rw [hq, hwt] at hih
      omega

lemma walkStep_measure (parsers : List ParserData)
    (HWF : ∀ pid, ∀ pr ∈ childPairs parsers pid, pr.2 < parsers.length)
    {s : WalkState} (hq : s.q ≠ []) :
    walkMeasure parsers (walkStep parsers s) < walkMeasure parsers s := by
  obtain ⟨nd, qt, hpq⟩ := List.exists_cons_of_ne_nil hq
  have hstep : walkStep parsers s =
      ⟨(walkEnq nd (childPairs parsers nd.pid) qt s.visited).1,
       (walkEnq nd (childPairs parsers nd.pid) qt s.visited).2,
       s.nodes ++ [nd]⟩ := by
    simp [walkStep, hpq]
  have hfold := walkEnq_measure parsers HWF nd (childPairs parsers nd.pid)
    qt s.visited (fun pr h => h)
  have hwt : 1 ≤ wtW parsers nd := Nat.le_add_right 1 _
  rw [hstep]
  simp only [walkMeasure, hpq, List.map_cons, List.sum_cons] at hfold ⊢
  omega

lemma walkRun_drain (parsers : List ParserData)
    (HWF : ∀ pid, ∀ pr ∈ childPairs parsers pid, pr.2 < parsers.length) :
    ∀ (f : Nat) (s : WalkState), walkMeasure parsers s ≤ f →
      (walkRun parsers f s).q = [] := by
  intro f
  induction f with
  | zero =>
    intro s hm
    cases hpq : s.q with
    | nil => simpa [walkRun] using hpq
    | cons nd qt =>
      exfalso
      have : 1 ≤ wtW parsers nd := Nat.le_add_right 1 _
      simp only [walkMeasure, hpq, List.map_cons, List.sum_cons] at hm
      omega
  | succ f ih =>
    intro s hm
    cases hpq : s.q with
    | nil => simp [walkRun, hpq]
    | cons nd qt =>
      have hne : s.q ≠ [] := by simp [hpq]
      have hlt := walkStep_measure parsers HWF hne
      have := ih (walkStep parsers s) (by omega)
      simpa [walkRun, hpq] using this

/-- `walkFuel` is enough fuel: the walker loop always drains its queue. -/
lemma walkNodes_drained {parsers : List ParserData} {rootId : Nat}
    (HWF : WfStore parsers) :
    (walkRun parsers (walkFuel parsers rootId) (walkInit rootId)).q = [] := by
  apply walkRun_drain parsers (wfStore_all HWF)
  have hsub := filter_sublist_filter_of_imp
    (fun pid => decide (pid ∉ ([rootId] : List Nat)))
    (fun _ => true) (by intro x _; rfl) (List.range parsers.length)
  have hle := sum_map_le_of_sublist (wtP parsers) hsub
  rw [List.filter_true] at hle
  have hconv : ((List.range parsers.length).map (wtP parsers)).sum =
      ((List.range parsers.length).map
        (fun pid => 1 + (childPairs parsers pid).length)).sum := rfl
  rw [hconv] at hle
  simp only [walkMeasure, walkInit, List.map_cons, List.map_nil, List.sum_cons,
    List.sum_nil, walkFuel, wtW]
  omega


/-! ## The scoped prog override of `_walk_parser_tree` (core.py lines 72-94) -/

/-- The walker loop observed with a fault oracle: `failAt k = true` makes
iteration `k` raise, modelling an unexpected exception inside the `try:`
body (the spec demands restoration on every exit path). -/
def walkLoopExc (parsers : List ParserData) :
    Nat → WalkState → Nat → (Nat → Bool) → Except Unit (List WNode)
  | 0, s, _, _ => .ok s.nodes
  | f + 1, s, k, failAt =>
    match s.q with
    | [] => .ok s.nodes
    | _ :: _ =>
      if failAt k then .error ()
      else walkLoopExc parsers f (walkStep parsers s) (k + 1) failAt

/-- The `finally:` clause at core.py lines 92-94: whatever the body produced,
the root parser's `prog` attribute is set back to the saved original. -/
def tryFinallyRestore (body : Except Unit (List WNode) × List Char)
    (originalProg : List Char) : Except Unit (List WNode) × List Char :=
  (body.1, originalProg)

/-- `_walk_parser_tree` with its `prog` handling, threading the root parser's
stored `prog` attribute (the only attribute the function mutates) as explicit
state.  Mirrors core.py lines 75-94: save `original_prog`, set the override
when `prog` is truthy, run the loop under `try:`, and restore in `finally:`
on both the normal and the exceptional exit path.  The second component of
the result is the root parser's `prog` after the call. -/
def walkWithProg (parsers : List ParserData) (rootId : Nat)
    (progArg : Option (List Char)) (rootProg : List Char) (failAt : Nat → Bool) :
    Except Unit (List WNode) × List Char :=
  let originalProg := rootProg
  let progDuringWalk :=
    match progArg with
    | some p => if p = [] then rootProg else p
    | none => rootProg
  let bodyResult :=
    (walkLoopExc parsers (walkFuel parsers rootId) (walkInit rootId) 0 failAt,
     progDuringWalk)
  tryFinallyRestore bodyResult originalProg

/-! ## Renderers (core.py lines 97-197) -/

/-- `" ".join((prog,) + node.path)`. -/
def pathStr (prog : List Char) (path : List (List Char)) : List Char :=
  joinWith [' '] (prog :: path)

/-- The header line of one node in `_render_text`: `f"$ {path_str} --help"`. -/
def textTitle (prog : List Char) (path : List (List Char)) : List Char :=
  "$ ".data ++ pathStr prog path ++ " --help".data

/-- The separator `"\n" + "-" * 78 + "\n"` emitted between nodes. -/
def textSep : List Char := '\n' :: (List.replicate 78 '-' ++ ['\n'])

/-- The `output` list built by `_render_text` (core.py lines 97-108); the
separator entry follows every node except the last. -/
def renderTextLines (prog : List Char) :
    List (List (List Char) × List Char) → List (List Char)
  | [] => []
  | [nd] =>
    [textTitle prog nd.1, List.replicate (textTitle prog nd.1).length '=', pyStrip nd.2]
  | nd :: rest =>
    [textTitle prog nd.1, List.replicate (textTitle prog nd.1).length '=', pyStrip nd.2,
      textSep] ++ renderTextLines prog rest

/-- `_render_text`: `"\n".join(output)`. -/
def renderText (nodes : List (List (List Char) × List Char)) (prog : List Char) :
    List Char :=
  joinWith ['\n'] (renderTextLines prog nodes)

/-- The heading emitted by `_render_md` for one node (core.py lines 116-118):
`"#" * (len(path) + 2)` and the inline-code label.  There is no cap on the
number of `#` characters. -/
def mdHeading (prog : List Char) (path : List (List Char)) : List Char :=
  List.replicate (path.length + 2) '#' ++ " \x60".data ++ pathStr prog path ++ "\x60\n".data

/-- The `output` list built by `_render_md` (core.py lines 111-122). -/
def renderMdLines (nodes : List (List (List Char) × List Char)) (prog : List Char) :
    List (List Char) :=
  ("# Help for \x60".data ++ prog ++ "\x60\n".data) ::
    nodes.flatMap (fun nd =>
      [mdHeading prog nd.1, "\x60\x60\x60text".data, pyStrip nd.2, "\x60\x60\x60\n".data])

/-- `_render_md`: `"\n".join(output)`. -/
def renderMd (nodes : List (List (List Char) × List Char)) (prog : List Char) :
    List Char :=
  joinWith ['\n'] (renderMdLines nodes prog)

/-! ### `textwrap.dedent` and the HTML renderer -/

/-- A line consisting solely of spaces/tabs (`^[ \t]+$`). -/
def wsOnlyLine (l : List Char) : Bool :=
  !l.isEmpty && l.all (fun c => c = ' ' || c = '\t')

/-- The leading `[ \t]*` of a line. -/
def leadingWs (l : List Char) : List Char :=
  l.takeWhile (fun c => c = ' ' || c = '\t')

/-- Longest common starting run of two strings. -/
def commonStart : List Char → List Char → List Char
  | a :: as2, b :: bs => if a = b then a :: commonStart as2 bs else []
  | _, _ => []

/-- Does `pre ++ something = l` hold? -/
def startsWithList : List Char → List Char → Bool
  | [], _ => true
  | _ :: _, [] => false
  | a :: as2, b :: bs => a = b && startsWithList as2 bs

/-- Drop `pre` from the front of `l` when it is there (per-line margin removal). -/
def dropLead (pre l : List Char) : List Char :=
  if startsWithList pre l then l.drop pre.length else l

/-- `textwrap.dedent`: blank out whitespace-only lines, compute the common
leading space/tab margin of the remaining lines, and remove it from every
line that starts with it. -/
def dedent (t : List Char) : List Char :=
  let lines := splitOnChar '\n' t
  let lines1 := lines.map (fun l => if wsOnlyLine l then [] else l)
  let indents := (lines1.filter (fun l => !l.isEmpty)).map leadingWs
  let margin :=
    match indents with
    | [] => []
    | i :: is2 => is2.foldl commonStart i
  joinWith ['\n'] (lines1.map (fun l => dropLead margin l))

/-- Python `str(n)` for a natural number. -/
def natStr (n : Nat) : List Char := (toString n).data

/-- The CSS literal of `_render_html` (core.py lines 128-146), before the
`textwrap.dedent` call: a leading newline, each rule line indented by eight
spaces, and a final four-space line. -/
def cssRaw : List Char :=
  ("\n" ++
   "        body \x7b font-family: -apple-system, BlinkMacSystemFont, \"Segoe UI\", Roboto, Helvetica, Arial, sans-serif; line-height: 1.6; margin: 0; background-color: #f8f9fa; color: #212529; \x7d\n" ++
   "        .container \x7b max-width: 800px; margin: 2rem auto; padding: 2rem; background-color: #fff; border-radius: 8px; box-shadow: 0 4px 8px rgba(0,0,0,0.05); \x7d\n" ++
   "        h1, h2, h3 \x7b margin-top: 2rem; margin-bottom: 1rem; color: #343a40; border-bottom: 1px solid #dee2e6; padding-bottom: 0.5rem; \x7d\n" ++
   "        h1 \x7b font-size: 2.5rem; \x7d\n" ++
   "        h2 \x7b font-size: 2rem; \x7d\n" ++
   "        h3 \x7b font-size: 1.75rem; \x7d\n" ++
   "        pre \x7b background-color: #e9ecef; padding: 1rem; border-radius: 5px; white-space: pre-wrap; word-wrap: break-word; font-family: \"SFMono-Regular\", Consolas, \"Liberation Mono\", Menlo, Courier, monospace; \x7d\n" ++
   "        code \x7b font-family: \"SFMono-Regular\", Consolas, \"Liberation Mono\", Menlo, Courier, monospace; font-size: 0.9em; color: #d6336c; \x7d\n" ++
   "        .command \x7b font-weight: bold; \x7d\n" ++
   "        nav \x7b padding: 1rem; background: #343a40; color: white; margin-bottom: 2rem; border-radius: 8px 8px 0 0; \x7d\n" ++
   "        nav h1 \x7b border: none; margin: 0; \x7d\n" ++
   "        nav ul \x7b list-style: none; padding: 0; margin: 0; \x7d\n" ++
   "        nav li \x7b display: inline-block; margin-right: 1rem; \x7d\n" ++
   "        nav a \x7b color: #adb5bd; text-decoration: none; \x7d\n" ++
   "        nav a:hover \x7b color: white; \x7d\n" ++
   "    ").data

/-- `css = textwrap.dedent(...)` at core.py line 128. -/
def htmlCss : List Char := dedent cssRaw

/-- `help_text.replace("&", "&amp;").replace("<", "&lt;").replace(">", "&gt;")`. -/
def htmlEscape (l : List Char) : List Char :=
  ((l.flatMap (fun c => if c = '&' then "&amp;".data else [c])).flatMap
    (fun c => if c = '<' then "&lt;".data else [c])).flatMap
    (fun c => if c = '>' then "&gt;".data else [c])

/-- `anchor = "cmd-" + "-".join(node.path) if node.path else "cmd-root"`. -/
def htmlAnchor (path : List (List Char)) : List Char :=
  if path = [] then "cmd-root".data else "cmd-".data ++ joinWith ['-'] path

/-- One `<li>` entry of the table of contents (core.py lines 156-158). -/
def htmlTocEntry (prog : List Char) (path : List (List Char)) : List Char :=
  "<li style=\"margin-left: ".data ++ natStr (path.length * 20) ++ "px;\"><a href=\"#".data ++
    htmlAnchor path ++ "\">".data ++
    (if pathStr prog path = [] then prog else pathStr prog path) ++ "</a></li>".data

/-- The anchored heading and `<pre>` block of one node (core.py lines 160-169). -/
def htmlBodyEntry (prog : List Char) (path : List (List Char)) (help : List Char) :
    List Char :=
  "<h".data ++ natStr (min (path.length + 2) 6) ++ " id=\"".data ++ htmlAnchor path ++
    "\" class=\"command\"><code>".data ++ pathStr prog path ++
    " --help</code></h".data ++ natStr (min (path.length + 2) 6) ++ ">".data ++
    "<pre>".data ++ htmlEscape (pyStrip help) ++ "</pre>".data

/-- `_render_html` (core.py lines 125-197). -/
def renderHtml (nodes : List (List (List Char) × List Char)) (prog : List Char) :
    List Char :=
  let toc := "<ul>".data ++ (nodes.flatMap (fun nd => htmlTocEntry prog nd.1)) ++ "</ul>".data
  let body := nodes.flatMap (fun nd => htmlBodyEntry prog nd.1 nd.2)
  pyStrip (dedent (
    ("\n        <!DOCTYPE html>\n        <html lang=\"en\">\n        <head>\n            <meta charset=\"UTF-8\">\n            <meta name=\"viewport\" content=\"width=device-width, initial-scale=1.0\">\n            <title>Superhelp for ").data ++
    prog ++
    ("</title>\n            <style>").data ++ htmlCss ++
    ("</style>\n        </head>\n        <body>\n            <div class=\"container\">\n                <nav>\n                    <h1>Help for <code>").data ++
    prog ++
    ("</code></h1>\n                    <h2>Table of Contents</h2>\n                    ").data ++
    toc ++
    ("\n                </nav>\n                <main>").data ++ body ++
    ("</main>\n            </div>\n        </body>\n        </html>\n    ").data))

/-! ## Entry points -/

/-- The keys of the `renderers` dict (core.py lines 228-232 and 488-492). -/
def renderersKeys : List (List Char) := ["text".data, "md".data, "html".data]

/-- Dispatch on the format, as `renderers[fmt](nodes, prog)` (valid keys only). -/
def renderDoc (fmt : List Char) (nodes : List (List (List Char) × List Char))
    (prog : List Char) : List Char :=
  if fmt = "text".data then renderText nodes prog
  else if fmt = "md".data then renderMd nodes prog
  else renderHtml nodes prog

/-- `full_help_from_parser` (core.py lines 200-255): compute `program_name`
via the `or` chain, walk the whole parser tree, then validate the format
(raising `ValueError` only after the walk) and render.  `helpFn` models
`format_help` of each parser object; the `rich` re-print branch only writes
to the console and does not change the returned document. -/
def fullHelpFromParserDoc (parsers : List ParserData) (rootId : Nat)
    (progArg : Option (List Char)) (parserProg : List Char) (fmt : List Char)
    (helpFn : Nat → List Char) : Except (List Char) (List Char) :=
  let programName :=
    match progArg with
    | some p => if p = [] then (if parserProg = [] then [] else parserProg) else p
    | none => if parserProg = [] then [] else parserProg
  let nodes := walkNodes parsers rootId
  if fmt ∈ renderersKeys then
    .ok (renderDoc fmt (nodes.map (fun n => (n.path, helpFn n.pid))) programName)
  else
    .error ("ValueError: Invalid format \x27".data ++ fmt ++ "\x27".data)

/-- `full_help_external` (core.py lines 399-493): `prog = command[0]` raises
`IndexError` on an empty base command before any probing; otherwise the whole
discovery loop runs and only then `renderers[fmt]` is looked up, raising
`KeyError` for an unknown format. -/
def fullHelpExternalDoc (probe : List (List Char) → ProbeOutcome)
    (command : List (List Char)) (tstr : List Char) (maxd : Int) (fmt : List Char) :
    Except (List Char) (List Char) :=
  match command with
  | [] => .error "IndexError: list index out of range".data
  | c0 :: _ =>
    let nodes := extNodes probe command tstr maxd
    if fmt ∈ renderersKeys then
      .ok (renderDoc fmt (nodes.map (fun n => (n.path, n.help))) c0)
    else
      .error ("KeyError: ".data ++ fmt)


/-! ## Order characterization of the extractor (no deduplication) -/

/-- The local qualification test of one line for the labeled-section strategy,
ignoring the section state: a line that is not a header, would not end a
section, does not restate a brace group, and carries a `\s+([\w-]+)` token. -/
def lineCandidate (l : List Char) : Option (List Char) :=
  if headerStart l then none
  else if endsSection l then none
  else if stripStartsLBrace l then none
  else lineToken l

/-- All candidate tokens of a text in scan order: the comma-split fields of
the brace group when pattern 1 fires, otherwise the first tokens of all
qualifying lines (whether or not a section header precedes them). -/
def candidateTokens (t : List Char) : List (List Char) :=
  match findUsageAux true t with
  | some s =>
    match braceScan (stripBracketsAux none (joinWith [' '] (pySplitWS (takeUntilDoubleNl s)))) with
    | some run => (splitOnChar ',' run).map pyStrip
    | none => (pySplitLines t).filterMap lineCandidate
  | none => (pySplitLines t).filterMap lineCandidate

lemma sectionScan_sublist :
    ∀ (lines : List (List Char)) (b : Bool),
      List.Sublist (sectionScan b lines) (lines.filterMap lineCandidate) := by
  intro lines
  induction lines with
  | nil => intro b; simp [sectionScan]
  | cons l rest ih =>
    intro b
    rw [List.filterMap_cons]
    by_cases h1 : headerStart l = true
    · rw [show sectionScan b (l :: rest) = sectionScan true rest by
        simp [sectionScan, h1]]
      rw [show lineCandidate l = none by simp [lineCandidate, h1]]
      exact ih true
    · by_cases hb : b = true
      · subst hb
        by_cases h2 : endsSection l = true
        · rw [show sectionScan true (l :: rest) = sectionScan false rest by
            simp [sectionScan, h1, h2]]
          rw [show lineCandidate l = none by simp [lineCandidate, h1, h2]]
          exact ih false
        · by_cases h3 : stripStartsLBrace l = true
          · rw [show sectionScan true (l :: rest) = sectionScan true rest by
              simp [sectionScan, h1, h2, h3]]
            rw [show lineCandidate l = none by simp [lineCandidate, h1, h2, h3]]
            exact ih true
          · rcases htok : lineToken l with _ | t0
            · rw [show sectionScan true (l :: rest) = sectionScan true rest by
                simp [sectionScan, h1, h2, h3, htok]]
              rw [show lineCandidate l = none by simp [lineCandidate, h1, h2, h3, htok]]
              exact ih true
            · rw [show sectionScan true (l :: rest) = t0 :: sectionScan true rest by
                simp [sectionScan, h1, h2, h3, htok]]
              rw [show lineCandidate l = some t0 by simp [lineCandidate, h1, h2, h3, htok]]
              exact (ih true).cons₂ t0
      · have hb' : b = false := by
          cases b
          · rfl
          · exact absurd rfl hb
        subst hb'
        rw [show sectionScan false (l :: rest) = sectionScan false rest by
          simp [sectionScan, h1]]
        rcases hcand : lineCandidate l with _ | t0
        · exact ih false
        · exact (ih false).cons t0

/-- The extractor's result lists candidates in first-appearance order: it is
a subsequence of the in-order candidate tokens of the text. -/
lemma findSubcommandsL_sublist_candidates (t : List Char) :
    List.Sublist (findSubcommandsL t) (candidateTokens t) := by
  unfold findSubcommandsL candidateTokens
  split
  · simp only []
    split
    · exact List.Sublist.refl _
    · unfold labeledSection
      by_cases hp : precheckHeader t = true
      · rw [if_pos hp]
        exact sectionScan_sublist (pySplitLines t) false
      · rw [if_neg hp]
        exact List.nil_sublist _
  · unfold labeledSection
    by_cases hp : precheckHeader t = true
    · rw [if_pos hp]
      exact sectionScan_sublist (pySplitLines t) false
    · rw [if_neg hp]
      exact List.nil_sublist _

/-! ## Renderer lemmas -/

lemma renderTextLines_head (prog : List Char) (nd : List (List Char) × List Char)
    (rest : List (List (List Char) × List Char)) :
    (renderTextLines prog (nd :: rest)).head? = some (textTitle prog nd.1) := by
  cases rest with
  | nil => rfl
  | cons nd2 rest2 => rfl

lemma takeWhile_hash (n : Nat) (rest : List Char) :
    ((List.replicate n '#' ++ ' ' :: rest).takeWhile (fun c => c = '#')) =
      List.replicate n '#' := by
  induction n with
  | zero => simp [List.takeWhile_cons]
  | succ n ih =>
    rw [List.replicate_succ, List.cons_append, List.takeWhile_cons]
    simp [ih]

lemma mdHeading_takeWhile (prog : List Char) (path : List (List Char)) :
    ((mdHeading prog path).takeWhile (fun c => c = '#')) =
      List.replicate (path.length + 2) '#' := by
  have h : mdHeading prog path = List.replicate (path.length + 2) '#' ++
      (' ' :: ("\x60".data ++ (pathStr prog path ++ "\x60\n".data))) := by
    unfold mdHeading
    rw [show " \x60".data = ' ' :: "\x60".data from rfl]
    simp [List.append_assoc]
  rw [h]
  exact takeWhile_hash _ _

lemma flatMapFour_getD (prog : List Char) :
    ∀ (nodes : List (List (List Char) × List Char)) (i : Nat), i < nodes.length →
      (nodes.flatMap (fun nd =>
        [mdHeading prog nd.1, "\x60\x60\x60text".data, pyStrip nd.2,
          "\x60\x60\x60\n".data])).getD (4 * i) [] =
        mdHeading prog ((nodes.getD i ([], [])).1) := by
  intro nodes
  induction nodes with
  | nil => intro i hi; simp at hi
  | cons nd rest ih =>
    intro i hi
    cases i with
    | zero => simp
    | succ i =>
      have h4 : 4 * (i + 1) = (((4 * i) + 1) + 1) + 1 + 1 := by omega
      rw [h4]
      rw [show ((nd :: rest).flatMap (fun nd =>
        [mdHeading prog nd.1, "\x60\x60\x60text".data, pyStrip nd.2,
          "\x60\x60\x60\n".data])) =
        mdHeading prog nd.1 :: "\x60\x60\x60text".data :: pyStrip nd.2 ::
          "\x60\x60\x60\n".data :: (rest.flatMap (fun nd =>
            [mdHeading prog nd.1, "\x60\x60\x60text".data, pyStrip nd.2,
              "\x60\x60\x60\n".data])) from by simp]
      rw [List.getD_cons_succ, List.getD_cons_succ, List.getD_cons_succ,
        List.getD_cons_succ, List.getD_cons_succ]
      simp only [List.length_cons] at hi
      exact ih i (by omega)

/-- The heading line of node `i` in the Markdown output list sits at index
`1 + 4*i` and starts with exactly `2 + len(path)` hash marks — uncapped. -/
lemma renderMdLines_heading (nodes : List (List (List Char) × List Char))
    (prog : List Char) (i : Nat) (hi : i < nodes.length) :
    (((renderMdLines nodes prog).getD (1 + 4 * i) []).takeWhile
        (fun c => c = '#')).length =
      (nodes.getD i ([], [])).1.length + 2 := by
  unfold renderMdLines
  rw [show 1 + 4 * i = (4 * i) + 1 from by omega]
  rw [List.getD_cons_succ]
  rw [flatMapFour_getD prog nodes i hi]
  rw [mdHeading_takeWhile]
  simp

/-! ## Newline-freeness of discovered paths -/

lemma extNodes_path_no_newline (probe : List (List Char) → ProbeOutcome)
    (command : List (List Char)) (tstr : List Char) (maxd : Int) :
    ∀ nd ∈ extNodes probe command tstr maxd, ∀ comp ∈ nd.path, '\n' ∉ comp := by
  have hprov := extNodes_prov probe command tstr maxd
  suffices H : ∀ n, ∀ nd ∈ extNodes probe command tstr maxd, nd.path.length = n →
      ∀ comp ∈ nd.path, '\n' ∉ comp by
    intro nd hnd
    exact H nd.path.length nd hnd rfl
  intro n
  induction n using Nat.strong_induction_on with
  | _ n ih =>
    intro nd hnd hlen comp hcomp
    rcases hprov nd hnd with h0 | ⟨nd2, hnd2, nm, heq, hnm⟩
    · rw [h0] at hcomp
      cases hcomp
    · rw [heq] at hcomp
      rcases List.mem_append.mp hcomp with hc | hc
      · have hl2 : nd2.path.length < n := by
          rw [heq] at hlen
          simp at hlen
          omega
        exact ih nd2.path.length hl2 nd2 hnd2 rfl comp hc
      · rw [List.mem_singleton.mp hc]
        exact findSubcommandsL_no_newline hnm


/-! ## Claim theorems -/

/-- An oracle whose child processes are never found. -/
def probeNF : List (List Char) → ProbeOutcome := fun _ => ProbeOutcome.notFound

/-- An oracle whose help text names the program's own token as a subcommand. -/
def probeSelf : List (List Char) → ProbeOutcome := fun _ =>
  ProbeOutcome.completed 0 "usage: git \x7bgit\x7d\n".data []

/-- An oracle with one timing-out child (`pip aa`) and one healthy sibling. -/
def probeC7 : List (List Char) → ProbeOutcome := fun args =>
  if args = ["pip".data, "--help".data] then
    ProbeOutcome.completed 0 "usage: pip \x7baa,bb\x7d\n".data []
  else if args = ["pip".data, "aa".data, "--help".data] then ProbeOutcome.timedOut
  else ProbeOutcome.completed 0 "leaf".data []

/-- A small parser store: `cli` with subcommands `cmd1` and `cmd2`, the
latter with a nested `sub1` (the repository's own test fixture). -/
def demoStore : List ParserData :=
  [⟨"cli".data, [[("cmd1".data, 1), ("cmd2".data, 2)]]⟩,
   ⟨"cli cmd1".data, []⟩,
   ⟨"cli cmd2".data, [[("sub1".data, 3)]]⟩,
   ⟨"cli cmd2 sub1".data, []⟩]

/-- C1 (amended): in every discovery run, the produced node paths are
pairwise distinct; the root node with the empty path is present exactly once
and rendered first — unconditionally for the in-process walker (over stores
satisfying argparse's name-uniqueness and well-formedness invariants), and
for the external prober provided `max_depth` is nonnegative (a negative
`max_depth` produces no nodes at all). -/
theorem c1_paths_unique_root_first :
    (∀ (parsers : List ParserData) (rootId : Nat),
      NodupNames parsers → WfStore parsers → rootId < parsers.length →
      ((walkNodes parsers rootId).map WNode.path).Nodup ∧
      ((walkNodes parsers rootId).map WNode.path).countP (fun p => decide (p = [])) = 1 ∧
      (walkNodes parsers rootId).head?.map WNode.path = some [] ∧
      (∀ (helpFn : Nat → List Char) (prog : List Char),
        (renderTextLines prog ((walkNodes parsers rootId).map
          (fun n => (n.path, helpFn n.pid)))).head? = some (textTitle prog []))) ∧
    (∀ (probe : List (List Char) → ProbeOutcome) (command : List (List Char))
      (tstr : List Char) (maxd : Int),
      ((extNodes probe command tstr maxd).map ExtNode.path).Nodup ∧
      (0 ≤ maxd →
        ((extNodes probe command tstr maxd).map ExtNode.path).countP
          (fun p => decide (p = [])) = 1 ∧
        (extNodes probe command tstr maxd).head?.map ExtNode.path = some [] ∧
        (∀ prog : List Char,
          (renderTextLines prog ((extNodes probe command tstr maxd).map
            (fun n => (n.path, n.help)))).head? = some (textTitle prog [])))) := by
  constructor
  · intro parsers rootId hn hwf hroot
    obtain ⟨t, ht⟩ := walkNodes_head parsers rootId
    refine ⟨walkNodes_nodup hn hwf hroot, (walkNodes_root_once hn hwf hroot), ?_, ?_⟩
    · rw [ht]; rfl
    · intro helpFn prog
      rw [ht]
      rw [List.map_cons]
      exact renderTextLines_head prog _ _
  · intro probe command tstr maxd
    refine ⟨extNodes_nodup probe command tstr maxd, ?_⟩
    intro hmaxd
    obtain ⟨t, ht⟩ := extNodes_head probe command tstr maxd hmaxd
    have hmem : ([] : List (List Char)) ∈ (extNodes probe command tstr maxd).map ExtNode.path := by
      rw [ht]; simp [extNodeAt]
    refine ⟨countP_eq_one_of_nodup_mem (extNodes_nodup probe command tstr maxd) hmem, ?_, ?_⟩
    · rw [ht]; rfl
    · intro prog
      rw [ht, List.map_cons]
      exact renderTextLines_head prog _ _

/-- C1 counterexample: at `max_depth = -1` the external prober produces no
node at all, so the root's empty path is not present (exactly once) in the
run, refuting the claim as stated for every discovery run. -/
theorem c1_counterexample :
    ¬ (((extNodes probeNF ["git".data] "5.0".data (-1)).map ExtNode.path).countP
        (fun p => decide (p = [])) = 1) := by decide

/-- C1 witness: the amended theorem applied to the repository's own fixture
store and to a concrete probe at the default depth. -/
theorem c1_witness :
    (NodupNames demoStore ∧ WfStore demoStore ∧ 0 < demoStore.length) ∧
    ((walkNodes demoStore 0).map WNode.path).Nodup ∧
    ((walkNodes demoStore 0).map WNode.path).countP (fun p => decide (p = [])) = 1 ∧
    ((0 : Int) ≤ 4) ∧
    ((extNodes probeNF ["pip".data] "5.0".data 4).map ExtNode.path).countP
      (fun p => decide (p = [])) = 1 :=
  ⟨⟨by unfold NodupNames; decide, by unfold WfStore; decide, by decide⟩,
   (c1_paths_unique_root_first.1 demoStore 0 (by unfold NodupNames; decide)
     (by unfold WfStore; decide) (by decide)).1,
   (c1_paths_unique_root_first.1 demoStore 0 (by unfold NodupNames; decide)
     (by unfold WfStore; decide) (by decide)).2.1,
   by decide,
   ((c1_paths_unique_root_first.2 probeNF ["pip".data] "5.0".data 4).2 (by decide)).1⟩

/-- C2: on the text `"usage: git [-v | --version] \x7bclone,init,add,mv,reset,rm,bisect,grep\x7d"`
the heuristic extractor returns exactly the eight names in order. -/
theorem c2_git_usage_extraction :
    findSubcommandsFromHelp
      "usage: git [-v | --version] \x7bclone,init,add,mv,reset,rm,bisect,grep\x7d" =
      ["clone", "init", "add", "mv", "reset", "rm", "bisect", "grep"] := by
  decide

/-- C3: the external prober records no node whose path is longer than
`max_depth`, and with `max_depth = 0` a run over a nonempty base command
yields exactly the root node. -/
theorem c3_depth_bound :
    ∀ (probe : List (List Char) → ProbeOutcome) (c0 : List Char)
      (rest : List (List Char)) (tstr : List Char) (maxd : Int),
      fullHelpExternalNodes probe (c0 :: rest) tstr maxd =
        Except.ok (extNodes probe (c0 :: rest) tstr maxd) ∧
      (∀ nd ∈ extNodes probe (c0 :: rest) tstr maxd, (nd.path.length : Int) ≤ maxd) ∧
      (maxd = 0 → extNodes probe (c0 :: rest) tstr maxd =
        [extNodeAt probe (c0 :: rest) tstr []]) := by
  intro probe c0 rest tstr maxd
  refine ⟨rfl, extNodes_depth probe (c0 :: rest) tstr maxd, ?_⟩
  intro h0
  subst h0
  exact extNodes_depth_zero probe (c0 :: rest) tstr 0 rfl

/-- C3 witness: a depth-zero run over `["pip"]` with a not-found oracle
yields exactly the root node, whose help text is the synthetic placeholder. -/
theorem c3_witness :
    extNodes probeNF ["pip".data] "5.0".data 0 =
      [extNodeAt probeNF ["pip".data] "5.0".data []] ∧
    (extNodeAt probeNF ["pip".data] "5.0".data []).help =
      "[Error: command not found: \x27pip\x27]".data :=
  ⟨(c3_depth_bound probeNF "pip".data [] "5.0".data 0).2.2 rfl, by decide⟩

/-- C4: the external prober terminates on every input: the loop reaches an
empty frontier within `extFuel` iterations and is a fixpoint from there on,
whatever subcommand names (own token, visited siblings, anything) the
extractor reports. -/
theorem c4_probe_terminates :
    ∀ (probe : List (List Char) → ProbeOutcome) (command : List (List Char))
      (tstr : List Char) (maxd : Int),
      (extRun probe command tstr maxd (extFuel probe command tstr maxd) extInit).q = [] ∧
      (∀ m, extFuel probe command tstr maxd ≤ m →
        extRun probe command tstr maxd m extInit =
          extRun probe command tstr maxd (extFuel probe command tstr maxd) extInit) := by
  intro probe command tstr maxd
  refine ⟨extFinal_drained probe command tstr maxd, ?_⟩
  intro m hm
  have h1 : m = extFuel probe command tstr maxd + (m - extFuel probe command tstr maxd) := by
    omega
  rw [h1, extRun_add]
  exact extRun_of_nil probe command tstr maxd (extFinal_drained probe command tstr maxd) _

/-- C4 witness: a probe whose help output names the program's own token
(`git` reporting subcommand `git`) still drains its frontier. -/
theorem c4_witness :
    (extRun probeSelf ["git".data] "5.0".data 2
      (extFuel probeSelf ["git".data] "5.0".data 2) extInit).q = [] ∧
    extRun probeSelf ["git".data] "5.0".data 2
      (extFuel probeSelf ["git".data] "5.0".data 2 + 7) extInit =
    extRun probeSelf ["git".data] "5.0".data 2
      (extFuel probeSelf ["git".data] "5.0".data 2) extInit :=
  ⟨(c4_probe_terminates probeSelf ["git".data] "5.0".data 2).1,
   (c4_probe_terminates probeSelf ["git".data] "5.0".data 2).2 _ (Nat.le_add_right _ 7)⟩

/-- C5 (amended): the extractor lists candidates in first-appearance order —
its result is a subsequence of the in-order candidate tokens of the text —
but it performs no deduplication: a name on several qualifying section lines
is returned several times. -/
theorem c5_order_no_dedup :
    (∀ t : List Char, List.Sublist (findSubcommandsL t) (candidateTokens t)) ∧
    findSubcommandsFromHelp "Commands:\n  build one\n  build two" = ["build", "build"] :=
  ⟨findSubcommandsL_sublist_candidates, by decide⟩

/-- C5 counterexample: a labeled section repeating the name `build` makes the
extractor return it twice, refuting the no-duplicates claim. -/
theorem c5_counterexample :
    ¬ (findSubcommandsFromHelp "Commands:\n  build one\n  build two").Nodup := by
  decide

/-- C6 (amended): in `_render_md` the heading of node `i` (at index `1 + 4*i`
of the output list) starts with exactly `2 + len(path)` hash marks, with no
cap at Markdown's maximum heading depth of six. -/
theorem c6_md_heading_uncapped :
    ∀ (nodes : List (List (List Char) × List Char)) (prog : List Char) (i : Nat),
      i < nodes.length →
      (((renderMdLines nodes prog).getD (1 + 4 * i) []).takeWhile
          (fun c => c = '#')).length =
        (nodes.getD i ([], [])).1.length + 2 :=
  renderMdLines_heading

/-- C6 counterexample: a node at path length five receives a seven-`#`
heading, not one capped at Markdown's maximum depth of six. -/
theorem c6_counterexample :
    ¬ ((((renderMdLines [(["a".data, "b".data, "c".data, "d".data, "e".data],
        "h".data)] "cli".data).getD 1 []).takeWhile (fun c => c = '#')).length =
      min (5 + 2) 6) := by decide

/-- C6 witness: the uncapped rule evaluated at the depth-five node. -/
theorem c6_witness :
    0 < 1 ∧
    (((renderMdLines [(["a".data, "b".data, "c".data, "d".data, "e".data],
        "h".data)] "cli".data).getD 1 []).takeWhile (fun c => c = '#')).length = 5 + 2 :=
  ⟨Nat.zero_lt_one,
   c6_md_heading_uncapped [(["a".data, "b".data, "c".data, "d".data, "e".data],
     "h".data)] "cli".data 0 Nat.zero_lt_one⟩

/-- C7 (amended): provided the base command's tokens contain no newline (and
the timeout rendering none, as a Python float never does), a timed-out or
not-found probe is recorded as a node whose help text is exactly the
synthetic placeholder, no node of the run strictly extends that node's path,
and every extracted child of any node within the depth bound is still
processed. -/
theorem c7_placeholder_isolated :
    ∀ (probe : List (List Char) → ProbeOutcome) (c0 : List Char)
      (rest : List (List Char)) (tstr : List Char) (maxd : Int),
      (∀ tok ∈ c0 :: rest, '\n' ∉ tok) → '\n' ∉ tstr →
      (∀ nd ∈ extNodes probe (c0 :: rest) tstr maxd,
        (probe ((c0 :: rest) ++ nd.path ++ ["--help".data]) = ProbeOutcome.notFound →
          nd.help = "[Error: command not found: \x27".data ++
            currentProg (c0 :: rest) nd.path ++ "\x27]".data ∧
          (∀ X ∈ extNodes probe (c0 :: rest) tstr maxd, ∀ suf,
            X.path = nd.path ++ suf → suf = [])) ∧
        (probe ((c0 :: rest) ++ nd.path ++ ["--help".data]) = ProbeOutcome.timedOut →
          nd.help = "[Error: command timed out after ".data ++ tstr ++ " seconds]".data ∧
          (∀ X ∈ extNodes probe (c0 :: rest) tstr maxd, ∀ suf,
            X.path = nd.path ++ suf → suf = []))) ∧
      (∀ nd ∈ extNodes probe (c0 :: rest) tstr maxd,
        ∀ nm ∈ findSubcommandsL (helpRawOf probe (c0 :: rest) tstr nd.path),
          ((nd.path ++ [nm]).length : Int) ≤ maxd →
          nd.path ++ [nm] ∈ (extNodes probe (c0 :: rest) tstr maxd).map ExtNode.path) := by
  intro probe c0 rest tstr maxd hcmd htn
  constructor
  · intro nd hnd
    have hnp : '\n' ∉ currentProg (c0 :: rest) nd.path :=
      currentProg_no_newline (c0 :: rest) hcmd
        (extNodes_path_no_newline probe (c0 :: rest) tstr maxd nd hnd)
    have hh : nd.help = pyStrip (helpRawOf probe (c0 :: rest) tstr nd.path) := by
      conv_lhs => rw [extNodes_content probe (c0 :: rest) tstr maxd nd hnd]
      rfl
    constructor
    · intro hp
      have hempty := extract_notFound_empty probe (c0 :: rest) tstr hp hnp
      refine ⟨?_, ?_⟩
      · rw [hh, helpRawOf_notFound probe (c0 :: rest) tstr hp, pyStrip_notFound_eq]
      · intro X hX suf hsuf
        exact no_descendants probe (c0 :: rest) tstr
          (extNodes_nodup probe (c0 :: rest) tstr maxd)
          (extNodes_prov probe (c0 :: rest) tstr maxd) hnd hempty suf X hX hsuf
    · intro hp
      have hempty := extract_timedOut_empty probe (c0 :: rest) tstr hp htn
      refine ⟨?_, ?_⟩
      · rw [hh, helpRawOf_timedOut probe (c0 :: rest) tstr hp, pyStrip_timedOut_eq]
      · intro X hX suf hsuf
        exact no_descendants probe (c0 :: rest) tstr
          (extNodes_nodup probe (c0 :: rest) tstr maxd)
          (extNodes_prov probe (c0 :: rest) tstr maxd) hnd hempty suf X hX hsuf
  · intro nd hnd nm hnm hdep
    exact extNodes_closure probe (c0 :: rest) tstr maxd nd hnd nm hnm (not_lt.mpr hdep)

/-- C7 counterexample: with a base-command token containing a newline and a
brace group, the not-found placeholder itself parses as a usage line, so the
not-found root *is* expanded: children are discovered from the placeholder. -/
theorem c7_counterexample :
    probeNF (["x\nusage: \x7ba,b\x7d".data] ++ [] ++ ["--help".data]) =
      ProbeOutcome.notFound ∧
    ["a".data] ∈ (extNodes probeNF ["x\nusage: \x7ba,b\x7d".data]
      "5.0".data 1).map ExtNode.path := by
  constructor
  · rfl
  · decide

/-- C7 witness: `pip aa` times out; its node carries the timeout placeholder,
while the sibling `pip bb` is still discovered and processed. -/
theorem c7_witness :
    (extNodeAt probeC7 ["pip".data] "5.0".data ["aa".data]).help =
      "[Error: command timed out after ".data ++ "5.0".data ++ " seconds]".data ∧
    [] ++ ["bb".data] ∈
      (extNodes probeC7 ["pip".data] "5.0".data 1).map ExtNode.path :=
  ⟨(((c7_placeholder_isolated probeC7 "pip".data [] "5.0".data 1 (by decide)
      (by decide)).1 (extNodeAt probeC7 ["pip".data] "5.0".data ["aa".data])
      (by decide)).2 (by decide)).1,
   (c7_placeholder_isolated probeC7 "pip".data [] "5.0".data 1 (by decide)
      (by decide)).2 (extNodeAt probeC7 ["pip".data] "5.0".data [])
      (by decide) "bb".data (by decide) (by decide)⟩

/-- C8 (amended): an unsupported output format makes the call fail with an
error, fatal to that call only — but only after discovery work:
`full_help_from_parser` walks the tree before validating and raises
`ValueError`; `full_help_external` runs the whole probe and fails at the
renderer lookup (`KeyError`). -/
theorem c8_invalid_format :
    ∀ fmt : List Char, fmt ∉ renderersKeys →
      (∀ (parsers : List ParserData) (rootId : Nat) (progArg : Option (List Char))
        (parserProg : List Char) (helpFn : Nat → List Char),
        fullHelpFromParserDoc parsers rootId progArg parserProg fmt helpFn =
          Except.error ("ValueError: Invalid format \x27".data ++ fmt ++ "\x27".data)) ∧
      (∀ (probe : List (List Char) → ProbeOutcome) (c0 : List Char)
        (rest : List (List Char)) (tstr : List Char) (maxd : Int),
        fullHelpExternalDoc probe (c0 :: rest) tstr maxd fmt =
          Except.error ("KeyError: ".data ++ fmt)) := by
  intro fmt hfmt
  constructor
  · intro parsers rootId progArg parserProg helpFn
    unfold fullHelpFromParserDoc
    simp only []
    rw [if_neg hfmt]
  · intro probe c0 rest tstr maxd
    unfold fullHelpExternalDoc
    simp only []
    rw [if_neg hfmt]

/-- C8 counterexample: with the unsupported format `yaml`, the external run
still spawns a child process (the probe trace is nonempty) before the call
fails, refuting "rejected before any discovery work or observable effect". -/
theorem c8_counterexample :
    fullHelpExternalDoc probeNF ["pip".data] "5.0".data 4 "yaml".data =
      Except.error ("KeyError: ".data ++ "yaml".data) ∧
    probeTrace probeNF ["pip".data] "5.0".data 4 =
      [["pip".data, "--help".data]] := by
  constructor
  · rfl
  · decide

/-- C8 witness: the amended theorem applied at format `yaml`. -/
theorem c8_witness :
    "yaml".data ∉ renderersKeys ∧
    fullHelpFromParserDoc demoStore 0 none "cli".data "yaml".data (fun _ => []) =
      Except.error ("ValueError: Invalid format \x27".data ++ "yaml".data ++ "\x27".data) :=
  ⟨by decide,
   (c8_invalid_format "yaml".data (by decide)).1 demoStore 0 none "cli".data (fun _ => [])⟩

/-- C9: the walker's scoped override of the root parser's `prog` is reverted
on every exit path: after the call the stored attribute equals its original
value, also when the traversal body raises (here: at its very first
iteration). -/
theorem c9_prog_restored :
    ∀ (parsers : List ParserData) (rootId : Nat) (progArg : Option (List Char))
      (rootProg : List Char) (failAt : Nat → Bool),
      (walkWithProg parsers rootId progArg rootProg failAt).2 = rootProg ∧
      (failAt 0 = true →
        (walkWithProg parsers rootId progArg rootProg failAt).1 = Except.error ()) := by
  intro parsers rootId progArg rootProg failAt
  constructor
  · rfl
  · intro hf
    show walkLoopExc parsers (walkFuel parsers rootId) (walkInit rootId) 0 failAt = _
    obtain ⟨k, hk⟩ : ∃ k, walkFuel parsers rootId = k + 1 :=
      ⟨(walkFuel parsers rootId) - 1, by unfold walkFuel; omega⟩
    rw [hk]
    simp [walkLoopExc, walkInit, hf]

/-- C9 witness: an override to `my-app` with a traversal that raises
immediately still leaves the original `cli` in place. -/
theorem c9_witness :
    (walkWithProg demoStore 0 (some "my-app".data) "cli".data (fun _ => true)).2 =
      "cli".data ∧
    (walkWithProg demoStore 0 (some "my-app".data) "cli".data (fun _ => true)).1 =
      Except.error () :=
  ⟨(c9_prog_restored demoStore 0 (some "my-app".data) "cli".data (fun _ => true)).1,
   (c9_prog_restored demoStore 0 (some "my-app".data) "cli".data (fun _ => true)).2 rfl⟩

/-- C10: calling the external prober with an empty base command fails with
`IndexError` from `command[0]` before any child process is invoked (empty
probe trace) and before any node is produced. -/
theorem c10_empty_command :
    ∀ (probe : List (List Char) → ProbeOutcome) (tstr : List Char) (maxd : Int)
      (fmt : List Char),
      fullHelpExternalDoc probe [] tstr maxd fmt =
        Except.error "IndexError: list index out of range".data ∧
      fullHelpExternalNodes probe [] tstr maxd =
        Except.error "IndexError: list index out of range".data ∧
      probeTrace probe [] tstr maxd = [] := by
  intro probe tstr maxd fmt
  exact ⟨rfl, rfl, rfl⟩

end TotalHelp
